import Mathlib

/-!
Verification development for the amtrak-map GTFS processing core.

The definitions below are a shallow embedding of the repository sources:
  - `src/utils/gtfsLoader.ts`  (GTFS time parsing: `parseGTFSTime`)
  - `src/utils/gtfsProcessor.ts` (route processing, Douglas-Peucker shape
    simplification)
  - `src/utils/routeMerger.ts` (duplicate-route merging)
  - `src/utils/sunlight.ts` (train position queries)

Modelling conventions, used consistently below:
  - JavaScript strings of the time parser are embedded as `List Char`
    (so that splitting on the colon character is a plain recursion);
    elsewhere plain `String` is used for identifiers and names.
  - JavaScript numbers that hold integers are `Int`; `parseInt` returning
    `NaN` is `Option Int` with `none` for `NaN`.  `Math.floor(a / 24)` on an
    integer is `Int.fdiv` and the JavaScript remainder `%` (truncating,
    sign of the dividend) is `Int.tmod`.
  - geographic coordinates are `Rat × Rat` (latitude, longitude);
    interpolation fractions are exact rationals.
  - `Date` values are modelled as integer epoch seconds; a base date is an
    integer day number, so `gtfsTimeToDate(base, t, off)` becomes
    `(base + off) * 86400 + wallclock-seconds`.  The 60000 ms window of the
    position query becomes 60 s (times are whole seconds).
  - a JavaScript `Map` is an insertion-ordered association list: `set`
    overwrites in place, `delete` removes, `get` looks up.
  - a JavaScript `Set` collecting elements in insertion order is
    `jsSetOf` (first occurrence kept).
  - `Array.prototype.sort` with the default string comparator, and the
    numeric comparator used for GTFS sequence numbers, are `insSort`
    (a stable sort, as required of the JavaScript one).
  - `Math.sqrt` appears in the sources only inside comparisons of
    nonnegative distances, so distances are embedded squared and every
    comparison is transported along the monotone square map
    (`sqrt d > sqrt e  ↔  d > e`, and for a tolerance `t`:
    `sqrt d > t  ↔  t < 0 ∨ d > t ^ 2`).
  - the recursion of `simplifyShape` is not structurally terminating for a
    negative tolerance (on a degenerate segment it recurses on the whole
    input again), so it is embedded with explicit fuel returning
    `Option`, with `none` meaning the recursion does not come back;
    `simplifyShape` itself supplies fuel equal to the list length, which
    is proved sufficient for every nonnegative tolerance.
-/

/-! ## Generic helpers: JavaScript Set / Map models -/

/-- Insertion-ordered deduplication: the model of filling a JavaScript
`Set` from a list and reading it back (first occurrence kept). -/
def jsSetOf {α : Type} [DecidableEq α] (l : List α) : List α :=
  l.foldl (fun acc x => if x ∈ acc then acc else acc ++ [x]) []

/-- A JavaScript `Map` with `String` keys: an insertion-ordered association
list.  Keys are unique whenever the map is built with `setM`. -/
abbrev MapL (α : Type) : Type := List (String × α)

/-- `Map.get`: value of the first entry with the given key. -/
def getM {α : Type} (m : MapL α) (k : String) : Option α :=
  (m.find? (fun e => e.1 == k)).map (fun e => e.2)

/-- `Map.set`: overwrite the value in place if the key is present,
append a new entry otherwise. -/
def setM {α : Type} (m : MapL α) (k : String) (v : α) : MapL α :=
  if m.any (fun e => e.1 == k) then
    m.map (fun e => if e.1 == k then (k, v) else e)
  else
    m ++ [(k, v)]

/-- `Map.delete`: remove every entry with the given key. -/
def delM {α : Type} (m : MapL α) (k : String) : MapL α :=
  m.filter (fun e => e.1 != k)

/-- A JavaScript `Set` of strings under incremental `add`:
membership-tested insertion. -/
def addSet (s : List String) (k : String) : List String :=
  if k ∈ s then s else s ++ [k]

/-- Insert into a sorted list, in front of the first element not
strictly earlier.  Helper of `insSort`. -/
def insertLe {α : Type} (le : α → α → Bool) (x : α) : List α → List α
  | [] => [x]
  | y :: ys => if le x y then x :: y :: ys else y :: insertLe le x ys

/-- Stable insertion sort: the model of `Array.prototype.sort` (stable
per the language specification; on the totally ordered keys sorted here
the result is determined by the comparator alone).  A structurally
recursive sort is used so that concrete runs reduce inside the kernel. -/
def insSort {α : Type} (le : α → α → Bool) : List α → List α
  | [] => []
  | x :: xs => insertLe le x (insSort le xs)

/-! ## GTFS time parsing (`src/utils/gtfsLoader.ts`)

`parseGTFSTime(timeStr)` splits on the colon, throws when there are not
exactly three parts, and otherwise applies `parseInt` to each part.  The
embedding works on `List Char`; a thrown error is `none` at the outer
`Option`, a `NaN` field is `none` at the inner `Option Int`. -/

/-- `timeStr.split(':')` on a character list.  Empty pieces are kept and
the empty string splits to one empty piece, as in JavaScript. -/
def splitOnColon : List Char → List (List Char)
  | [] => [[]]
  | c :: rest =>
    let r := splitOnColon rest
    if c = ':' then [] :: r
    else
      match r with
      | [] => [[c]]
      | h :: t => (c :: h) :: t

/-- Value of a leading run of decimal digits; `none` when there is none.
Helper for `parseIntJS`. -/
def leadingDigitsVal (s : List Char) : Option Nat :=
  let ds := s.takeWhile Char.isDigit
  if ds.isEmpty then none
  else some (ds.foldl (fun a c => a * 10 + (c.toNat - ('0').toNat)) 0)

/-- JavaScript `parseInt(s, 10)`: skip leading whitespace, an optional
sign, then the leading run of digits; `NaN` (here `none`) when no digit
follows. -/
def parseIntJS (s : List Char) : Option Int :=
  match s.dropWhile Char.isWhitespace with
  | '-' :: rest => (leadingDigitsVal rest).map (fun n => -(n : Int))
  | '+' :: rest => (leadingDigitsVal rest).map (fun n => (n : Int))
  | rest => (leadingDigitsVal rest).map (fun n => (n : Int))

/-- The record returned by `parseGTFSTime`.  Each field is `none` when the
JavaScript value would be `NaN`. -/
structure ParsedGTFSTime where
  hours : Option Int
  minutes : Option Int
  seconds : Option Int
  dayOffset : Option Int
  totalMinutes : Option Int
deriving DecidableEq

/-- `parseGTFSTime` from `gtfsLoader.ts`: `none` models the thrown
`Invalid GTFS time format` error (raised exactly when the split does not
have three parts).  `hours` is `totalHours % 24` (JavaScript remainder),
`dayOffset` is `Math.floor(totalHours / 24)`, `totalMinutes` is
`totalHours * 60 + minutes`. -/
def parseGTFSTime (timeStr : List Char) : Option ParsedGTFSTime :=
  match splitOnColon timeStr with
  | [p0, p1, p2] =>
    let totalHours := parseIntJS p0
    let minutes := parseIntJS p1
    let seconds := parseIntJS p2
    some
      { hours := totalHours.map (fun t => t.tmod 24)
        minutes := minutes
        seconds := seconds
        dayOffset := totalHours.map (fun t => t.fdiv 24)
        totalMinutes :=
          match totalHours, minutes with
          | some t, some m => some (t * 60 + m)
          | _, _ => none }
  | _ => none

/-! ## Data model (`src/types`) -/

/-- `DirectionAxis` from the types module. -/
inductive DirectionAxis : Type
  | eastWest
  | northSouth
deriving DecidableEq

/-- `DirectionType` from the types module. -/
inductive DirectionType : Type
  | eastbound
  | westbound
  | northbound
  | southbound
deriving DecidableEq

/-- The numeric content of a well-formed `HH:MM:SS` GTFS time string
(`h` is the raw hour figure and may exceed 23).  `ProcessedStop` stores
the strings; since the position query re-parses them with `parseGTFSTime`
at each use, the embedding stores the parsed triple directly and
`anchorTime` applies the same `% 24` normalization that
`parseGTFSTime().hours` performs. -/
structure GTime where
  h : Int
  m : Int
  s : Int
deriving DecidableEq

/-- `ProcessedStop` from the types module (coordinates `[lat, lon]`
split into two rational fields). -/
structure ProcessedStop where
  stopId : String
  stopName : String
  stopSequence : Int
  lat : Rat
  lng : Rat
  timezone : String
  arrivalTime : GTime
  departureTime : GTime
  dayOffset : Int
deriving DecidableEq

/-- `ProcessedTrip` (the `ProcessedSchedule` of the types module), with
the seven operating-day flags inlined. -/
structure ProcessedTrip where
  tripId : String
  routeId : String
  trainNumber : String
  direction : String
  shapeId : String
  stops : List ProcessedStop
  monday : Bool
  tuesday : Bool
  wednesday : Bool
  thursday : Bool
  friday : Bool
  saturday : Bool
  sunday : Bool
  startDate : String
  endDate : String
deriving DecidableEq

/-- `ProcessedRoute` from the types module; `category` is the optional
tag referenced by the route merger (absent on freshly processed routes). -/
structure ProcessedRoute where
  routeId : String
  routeName : String
  routeNumbers : List String
  directionAxis : DirectionAxis
  directionOptions : List DirectionType
  shapeIds : List String
  color : String
  url : String
  category : Option String
deriving DecidableEq

/-- Placeholder stop used to model a JavaScript array access that the
guarded control flow never reaches out of bounds. -/
def defStop : ProcessedStop :=
  { stopId := "", stopName := "", stopSequence := 0, lat := 0, lng := 0
    timezone := "", arrivalTime := ⟨0, 0, 0⟩, departureTime := ⟨0, 0, 0⟩
    dayOffset := 0 }

/-! ## Train position query (`src/utils/sunlight.ts`)

`gtfsTimeToDate(baseDate, timeString, dayOffset)` parses the string,
adds `dayOffset` days to the base date and sets the wall clock to the
parsed (normalized) hours/minutes/seconds.  With the base date given as
an integer day number and times in epoch seconds this is `anchorTime`. -/

/-- Anchor a stop time: `(base + off) * 86400` seconds plus the wall
clock seconds of the parsed time (`hours` normalized by the JavaScript
remainder, exactly as `parseGTFSTime().hours`). -/
def anchorTime (base : Int) (t : GTime) (off : Int) : Int :=
  (base + off) * 86400 + (t.h.tmod 24) * 3600 + t.m * 60 + t.s

/-- Result record of `getTrainPositionAtTime`. -/
structure TrainPos where
  lat : Rat
  lng : Rat
  nearestStops : String × String
deriving DecidableEq

/-- First loop of `getTrainPositionAtTime`: scan consecutive stop pairs
for one whose `[departure(current), arrival(next)]` interval contains the
target, and interpolate linearly by elapsed duration (fraction 0 on a
zero or negative duration). -/
def findBracket (base : Int) (target : Int) : List ProcessedStop → Option TrainPos
  | [] => none
  | [_] => none
  | cur :: next :: rest =>
    let currentTime := anchorTime base cur.departureTime cur.dayOffset
    let nextTime := anchorTime base next.arrivalTime next.dayOffset
    if currentTime ≤ target ∧ target ≤ nextTime then
      let totalDuration := nextTime - currentTime
      let elapsedDuration := target - currentTime
      let fraction : Rat :=
        if 0 < totalDuration then (elapsedDuration : Rat) / (totalDuration : Rat) else 0
      some
        { lat := cur.lat + (next.lat - cur.lat) * fraction
          lng := cur.lng + (next.lng - cur.lng) * fraction
          nearestStops := (cur.stopName, next.stopName) }
    else
      findBracket base target (next :: rest)

/-- Second loop of `getTrainPositionAtTime`: first stop whose anchored
departure instant is within 60 seconds of the target gets returned with
its own coordinates (the following stop name, or its own at the end of
the list). -/
def findNear (base : Int) (target : Int) : List ProcessedStop → Option TrainPos
  | [] => none
  | st :: rest =>
    if |target - anchorTime base st.departureTime st.dayOffset| < 60 then
      some
        { lat := st.lat
          lng := st.lng
          nearestStops := (st.stopName, ((rest.head?).map (fun n => n.stopName)).getD st.stopName) }
    else
      findNear base target rest

/-- Anchored departure instant of the first stop (`stopTimes[0]`). -/
def firstDepartureOf (base : Int) (schedule : ProcessedTrip) : Int :=
  anchorTime base (schedule.stops.headD defStop).departureTime
    (schedule.stops.headD defStop).dayOffset

/-- Anchored arrival instant of the last stop. -/
def lastArrivalOf (base : Int) (schedule : ProcessedTrip) : Int :=
  anchorTime base (schedule.stops.getLastD defStop).arrivalTime
    (schedule.stops.getLastD defStop).dayOffset

/-- `getTrainPositionAtTime` from `sunlight.ts`: `none` for fewer than
two stops or a target outside `[first departure, last arrival]`;
otherwise the bracketing loop, then the 60-second near-match loop. -/
def getTrainPositionAtTime (schedule : ProcessedTrip) (targetTime : Int)
    (base : Int) : Option TrainPos :=
  let stops := schedule.stops
  if stops.length < 2 then none
  else
    let firstDeparture := firstDepartureOf base schedule
    let lastArrival := lastArrivalOf base schedule
    if targetTime < firstDeparture ∨ targetTime > lastArrival then none
    else
      match findBracket base targetTime stops with
      | some pos => some pos
      | none => findNear base targetTime stops

/-! ## Route merger (`src/utils/routeMerger.ts`) -/

/-- `RouteMergeGroup` configuration record. -/
structure RouteMergeGroup where
  routeIds : List String
  mergedName : String
  primaryRouteId : Option String
deriving DecidableEq

/-- Lexicographic comparison of character lists by code point: the order
of the default `Array.prototype.sort` string comparator (which compares
code units; identical on these feed identifiers).  Defined directly so
that concrete comparisons reduce inside the kernel. -/
def charListLe : List Char → List Char → Bool
  | [], _ => true
  | _ :: _, [] => false
  | a :: as, b :: bs =>
    if a.toNat < b.toNat then true
    else if b.toNat < a.toNat then false
    else charListLe as bs

/-- String order used by the default `Array.prototype.sort` comparator. -/
def strLe (a b : String) : Bool := charListLe a.data b.data

/-- All stop ids of a trip list, in visiting order with repetitions (the
iteration order of the two nested loops of `getUniqueStopIds`). -/
def idsOf (trips : List ProcessedTrip) : List String :=
  (trips.map (fun t => t.stops.map (fun st => st.stopId))).flatten

/-- `getUniqueStopIds`: all stop ids of all trips, through a `Set`
(insertion order) and the default sort.  Since the sort canonicalizes the
order, the `Set` is modelled by `List.dedup` (the deduplication keeps one
occurrence of each id, which is all that survives sorting). -/
def getUniqueStopIds (trips : List ProcessedTrip) : List String :=
  insSort strLe ((idsOf trips).dedup)

/-- `haveIdenticalStops`: equal lengths and elementwise equality of the
two sorted unique stop-id arrays. -/
def haveIdenticalStops (tripsA tripsB : List ProcessedTrip) : Bool :=
  let stopsA := getUniqueStopIds tripsA
  let stopsB := getUniqueStopIds tripsB
  stopsA.length == stopsB.length && (stopsA.zip stopsB).all (fun p => p.1 == p.2)

/-- `validateMergeGroup`: vacuously true below two ids; false when some
member has no trips or some member differs from the first member in its
unique stop-id set. -/
def validateMergeGroup (routeIds : List String)
    (schedules : MapL (List ProcessedTrip)) : Bool :=
  if routeIds.length < 2 then true
  else
    let allTrips := routeIds.map (fun id => (getM schedules id).getD [])
    if allTrips.any (fun trips => trips.length == 0) then false
    else
      let referenceTrips := allTrips.headD []
      allTrips.tail.all (fun trips => haveIdenticalStops referenceTrips trips)

/-- Placeholder route for a guarded out-of-bounds array access. -/
def defRoute : ProcessedRoute :=
  { routeId := "", routeName := "", routeNumbers := [], directionAxis := .eastWest
    directionOptions := [], shapeIds := [], color := "", url := "", category := none }

/-- `mergeRouteObjects`: primary route by id (first route as fallback),
sorted union of train numbers, union of non-empty shape ids, union of
direction options (all unions in `Set` insertion order). -/
def mergeRouteObjects (routes : List ProcessedRoute) (mergedName : String)
    (primaryRouteId : String) : ProcessedRoute :=
  let primaryRoute := ((routes.find? (fun r => r.routeId == primaryRouteId)).getD
    (routes.headD defRoute))
  let allTrainNumbers := jsSetOf (routes.map (fun r => r.routeNumbers)).flatten
  let allShapeIds := jsSetOf ((routes.map (fun r => r.shapeIds)).flatten.filter
    (fun sid => sid ≠ ""))
  let allDirectionOptions := jsSetOf (routes.map (fun r => r.directionOptions)).flatten
  { routeId := primaryRoute.routeId
    routeName := mergedName
    routeNumbers := insSort strLe allTrainNumbers
    directionAxis := primaryRoute.directionAxis
    directionOptions := allDirectionOptions
    shapeIds := allShapeIds
    color := primaryRoute.color
    url := primaryRoute.url
    category := primaryRoute.category }

/-- One step of the `mergeSchedules` loop: collect the trips of one
member id (reassigned to the primary id) and delete the non-primary
bucket. -/
def mergeSchedulesStep (primaryRouteId : String)
    (acc : List ProcessedTrip × MapL (List ProcessedTrip)) (routeId : String) :
    List ProcessedTrip × MapL (List ProcessedTrip) :=
  let routeTrips := (getM acc.2 routeId).getD []
  let merged := acc.1 ++ routeTrips.map (fun t => { t with routeId := primaryRouteId })
  (merged, if routeId ≠ primaryRouteId then delM acc.2 routeId else acc.2)

/-- `mergeSchedules`: reassign every member trip to the primary id,
delete non-primary buckets along the way, then store the collected trips
under the primary id. -/
def mergeSchedules (schedules : MapL (List ProcessedTrip)) (routeIds : List String)
    (primaryRouteId : String) : MapL (List ProcessedTrip) :=
  let acc := routeIds.foldl (mergeSchedulesStep primaryRouteId) ([], schedules)
  setM acc.2 primaryRouteId acc.1

/-- The mutable state of the `applyRouteMerges` loop: the route index,
the removal set and the schedules map. -/
structure MergeState where
  index : MapL ProcessedRoute
  remove : List String
  sched : MapL (List ProcessedTrip)
deriving DecidableEq

/-- Effective primary id of a group: `primaryRouteId || routeIds[0]`
(the empty string is falsy in JavaScript). -/
def effPrimary (g : RouteMergeGroup) : String :=
  match g.primaryRouteId with
  | some p => if p = "" then g.routeIds.headD "" else p
  | none => g.routeIds.headD ""

/-- Body of the `applyRouteMerges` loop for one merge group: skip below
two resolvable ids, skip on failed validation, otherwise merge the route
objects, merge the schedules and mark non-primary ids for removal. -/
def applyOneGroup (st : MergeState) (g : RouteMergeGroup) : MergeState :=
  let groupRoutes := g.routeIds.filterMap (getM st.index)
  if groupRoutes.length < 2 then st
  else if ¬ validateMergeGroup g.routeIds st.sched then st
  else
    let primary := effPrimary g
    let mergedRoute := mergeRouteObjects groupRoutes g.mergedName primary
    { index := setM st.index primary mergedRoute
      sched := mergeSchedules st.sched g.routeIds primary
      remove := g.routeIds.foldl
        (fun s rid => if rid ≠ primary then addSet s rid else s) st.remove }

/-- Route index built by `new Map(routes.map(r => [r.routeId, r]))`. -/
def buildRouteIndexP (routes : List ProcessedRoute) : MapL ProcessedRoute :=
  routes.foldl (fun m r => setM m r.routeId r) []

/-- `applyRouteMerges` from `routeMerger.ts`.  The source mutates the
schedules map in place and returns the filtered routes array; the
embedding returns both.  After the group loop, routes marked for removal
are filtered out and every surviving entry is replaced by its (possibly
merged) index value. -/
def applyRouteMerges (routes : List ProcessedRoute)
    (schedules : MapL (List ProcessedTrip)) (mergeGroups : List RouteMergeGroup) :
    List ProcessedRoute × MapL (List ProcessedTrip) :=
  let final := mergeGroups.foldl applyOneGroup
    { index := buildRouteIndexP routes, remove := [], sched := schedules }
  let mergedRoutes := (routes.filter (fun r => ¬ r.routeId ∈ final.remove)).map
    (fun r => (getM final.index r.routeId).getD r)
  (mergedRoutes, final.sched)

/-! ## GTFS raw records and indexes (`src/utils/gtfsProcessor.ts`) -/

/-- `GTFSRoute` raw record. -/
structure GTFSRoute where
  route_id : String
  agency_id : String
  route_short_name : String
  route_long_name : String
  route_type : Int
  route_url : String
  route_color : String
  route_text_color : String
deriving DecidableEq

/-- `GTFSStop` raw record. -/
structure GTFSStop where
  stop_id : String
  stop_name : String
  stop_url : String
  stop_timezone : String
  stop_lat : Rat
  stop_lon : Rat
deriving DecidableEq

/-- `GTFSTrip` raw record. -/
structure GTFSTrip where
  route_id : String
  service_id : String
  trip_id : String
  trip_short_name : String
  direction_id : Int
  shape_id : String
  trip_headsign : String
deriving DecidableEq

/-- `GTFSStopTime` raw record (time strings as character lists, matching
the `parseGTFSTime` embedding). -/
structure GTFSStopTime where
  trip_id : String
  arrival_time : List Char
  departure_time : List Char
  stop_id : String
  stop_sequence : Int
  pickup_type : Int
  drop_off_type : Int
  timepoint : Int
deriving DecidableEq

/-- `GTFSShape` raw record. -/
structure GTFSShape where
  shape_id : String
  shape_pt_lat : Rat
  shape_pt_lon : Rat
  shape_pt_sequence : Int
deriving DecidableEq

/-- `RouteShape`: an id with its ordered coordinate list. -/
structure RouteShape where
  shapeId : String
  coordinates : List (Rat × Rat)
deriving DecidableEq

/-- `buildStopIndex`: stop-by-id map, last write wins. -/
def buildStopIndex (stops : List GTFSStop) : MapL GTFSStop :=
  stops.foldl (fun m s => setM m s.stop_id s) []

/-- `buildShapeIndex`: group the shape points by id in first-occurrence
order, sort each group by sequence (stable sort, as the JavaScript sort
is), and emit coordinate lists. -/
def buildShapeIndex (shapes : List GTFSShape) : MapL RouteShape :=
  let groups := shapes.foldl
    (fun m sp =>
      match getM m sp.shape_id with
      | none => setM m sp.shape_id [sp]
      | some l => setM m sp.shape_id (l ++ [sp])) []
  groups.map (fun e =>
    (e.1,
      { shapeId := e.1
        coordinates := (insSort (fun a b => a.shape_pt_sequence ≤ b.shape_pt_sequence) e.2).map
          (fun sp => (sp.shape_pt_lat, sp.shape_pt_lon)) }))

/-- `buildStopTimeIndex`: group stop times by trip id in first-occurrence
order and sort each group by stop sequence. -/
def buildStopTimeIndex (stopTimes : List GTFSStopTime) : MapL (List GTFSStopTime) :=
  let groups := stopTimes.foldl
    (fun m st =>
      match getM m st.trip_id with
      | none => setM m st.trip_id [st]
      | some l => setM m st.trip_id (l ++ [st])) []
  groups.map (fun e =>
    (e.1, insSort (fun a b => a.stop_sequence ≤ b.stop_sequence) e.2))

/-! ## `processRoutes`

`determineDirectionAxis` classifies the initial great-circle bearing with
`Math.atan2` over trigonometric expressions; those transcendental reals
have no computable rational embedding, so the axis-inference function is
a parameter (`axisOf`) of the processing functions below.  Every claim
settled here holds for an arbitrary `axisOf`. -/

/-- Placeholder trip for a guarded out-of-bounds array access. -/
def defTrip : GTFSTrip :=
  { route_id := "", service_id := "", trip_id := "", trip_short_name := ""
    direction_id := 0, shape_id := "", trip_headsign := "" }

/-- Axis computation of `processRoutes` for one route: the first listed
shape when it resolves, otherwise the stop coordinates of the first trip
(at least two required), otherwise the east-west default. -/
def routeAxis (axisOf : List (Rat × Rat) → DirectionAxis)
    (stopIndex : MapL GTFSStop) (shapeIndex : MapL RouteShape)
    (stopTimeIndex : MapL (List GTFSStopTime))
    (routeTrips : List GTFSTrip) (shapeIds : List String) : DirectionAxis :=
  if shapeIds.length > 0 ∧ (getM shapeIndex (shapeIds.headD "")).isSome then
    axisOf (((getM shapeIndex (shapeIds.headD "")).getD ⟨"", []⟩).coordinates)
  else
    let firstTrip := routeTrips.headD defTrip
    let tripStopTimes := (getM stopTimeIndex firstTrip.trip_id).getD []
    if 2 ≤ tripStopTimes.length then
      let stopCoords := tripStopTimes.filterMap
        (fun st => (getM stopIndex st.stop_id).map (fun s => (s.stop_lat, s.stop_lon)))
      if 2 ≤ stopCoords.length then axisOf stopCoords else .eastWest
    else .eastWest

/-- The two generic labels of an axis, in source order. -/
def axisPair : DirectionAxis → List DirectionType
  | .eastWest => [.westbound, .eastbound]
  | .northSouth => [.northbound, .southbound]

/-- The single generic label of an axis. -/
def axisSingle : DirectionAxis → DirectionType
  | .eastWest => .westbound
  | .northSouth => .northbound

/-- Loop body of `processRoutes` for one route: `none` when the route has
no trips (the route is dropped with a warning); otherwise the processed
route.  Direction options: the generic pair when there are at least two
distinct `direction_id` values or at least two distinct non-empty
headsigns, the single generic label otherwise. -/
def processOneRoute (axisOf : List (Rat × Rat) → DirectionAxis)
    (stopIndex : MapL GTFSStop) (shapeIndex : MapL RouteShape)
    (stopTimeIndex : MapL (List GTFSStopTime))
    (trips : List GTFSTrip) (route : GTFSRoute) : Option ProcessedRoute :=
  let routeTrips := trips.filter (fun t => t.route_id == route.route_id)
  if routeTrips.length = 0 then none
  else
    let routeNumbers := jsSetOf ((routeTrips.map (fun t => t.trip_short_name)).filter
      (fun n => n ≠ ""))
    let shapeIds := jsSetOf ((routeTrips.map (fun t => t.shape_id)).filter
      (fun sid => sid ≠ ""))
    let uniqueHeadsigns := jsSetOf ((routeTrips.map (fun t => t.trip_headsign)).filter
      (fun h => h ≠ ""))
    let uniqueDirectionIds := jsSetOf (routeTrips.map (fun t => t.direction_id))
    let directionAxis := routeAxis axisOf stopIndex shapeIndex stopTimeIndex
      routeTrips shapeIds
    let directionOptions :=
      if 2 ≤ uniqueDirectionIds.length ∨ 2 ≤ uniqueHeadsigns.length then
        axisPair directionAxis
      else [axisSingle directionAxis]
    some
      { routeId := route.route_id
        routeName := route.route_long_name
        routeNumbers := routeNumbers
        directionAxis := directionAxis
        directionOptions := directionOptions
        shapeIds := shapeIds
        color := route.route_color
        url := route.route_url
        category := none }

/-- `processRoutes` from `gtfsProcessor.ts` (axis inference supplied as
`axisOf`): build the three indexes, then process every route, dropping
routes without trips. -/
def processRoutes (axisOf : List (Rat × Rat) → DirectionAxis)
    (routes : List GTFSRoute) (trips : List GTFSTrip) (shapes : List GTFSShape)
    (stops : List GTFSStop) (stopTimes : List GTFSStopTime) : List ProcessedRoute :=
  let stopIndex := buildStopIndex stops
  let shapeIndex := buildShapeIndex shapes
  let stopTimeIndex := buildStopTimeIndex stopTimes
  routes.filterMap (processOneRoute axisOf stopIndex shapeIndex stopTimeIndex trips)

/-! ## Douglas-Peucker simplification (`simplifyShape`) -/

/-- Squared perpendicular distance from `point` to the line through
`lineStart` and `lineEnd` (squared distance to `lineStart` when the two
line ends coincide).  The source returns the square root; every use is a
comparison of nonnegative values, transported along squaring. -/
def perpendicularDistanceSq (point lineStart lineEnd : Rat × Rat) : Rat :=
  let dx := lineEnd.1 - lineStart.1
  let dy := lineEnd.2 - lineStart.2
  if dx = 0 ∧ dy = 0 then
    (point.1 - lineStart.1) ^ 2 + (point.2 - lineStart.2) ^ 2
  else
    let t := ((point.1 - lineStart.1) * dx + (point.2 - lineStart.2) * dy) /
      (dx * dx + dy * dy)
    let closestX := lineStart.1 + t * dx
    let closestY := lineStart.2 + t * dy
    (point.1 - closestX) ^ 2 + (point.2 - closestY) ^ 2

/-- The scan of the interior points `1 .. length - 2` for the maximum
perpendicular deviation from the first-to-last chord: returns the
(squared) maximum and its index, `(0, 0)` when no deviation exceeds 0.
Ties keep the earlier index (`>` comparison). -/
def scanMaxDeviation (coordinates : List (Rat × Rat)) : Rat × Nat :=
  let first := coordinates.headD (0, 0)
  let last := coordinates.getLastD (0, 0)
  (List.range' 1 (coordinates.length - 2)).foldl
    (fun acc i =>
      let distance := perpendicularDistanceSq (coordinates.getD i (0, 0)) first last
      if distance > acc.1 then (distance, i) else acc)
    (0, 0)

/-- `simplifyShape` with explicit fuel.  `sqrt maxDistance > tolerance`
is `tolerance < 0 ∨ maxDistanceSq > tolerance ^ 2`.  `none` models a
recursion that does not terminate (possible only for a negative
tolerance, where a degenerate split recurses on an unshortened list). -/
def simplifyShapeF (fuel : Nat) (coordinates : List (Rat × Rat)) (tolerance : Rat) :
    Option (List (Rat × Rat)) :=
  if coordinates.length ≤ 2 then some coordinates
  else
    match fuel with
    | 0 => none
    | f + 1 =>
      let first := coordinates.headD (0, 0)
      let last := coordinates.getLastD (0, 0)
      let scan := scanMaxDeviation coordinates
      if tolerance < 0 ∨ scan.1 > tolerance ^ 2 then
        match simplifyShapeF f (coordinates.take (scan.2 + 1)) tolerance,
            simplifyShapeF f (coordinates.drop scan.2) tolerance with
        | some left, some right => some (left.dropLast ++ right)
        | _, _ => none
      else
        some [first, last]

/-- `simplifyShape` from `gtfsProcessor.ts`: the fueled recursion with
fuel equal to the input length (sufficient for every nonnegative
tolerance; see `simplifyShapeF_total_of_nonneg`). -/
def simplifyShape (coordinates : List (Rat × Rat)) (tolerance : Rat) :
    Option (List (Rat × Rat)) :=
  simplifyShapeF coordinates.length coordinates tolerance

/-- Three points are collinear: zero cross product of the two difference
vectors. -/
def collinear3 (p q r : Rat × Rat) : Prop :=
  (q.1 - p.1) * (r.2 - p.2) = (q.2 - p.2) * (r.1 - p.1)

instance decCollinear3 (p q r : Rat × Rat) : Decidable (collinear3 p q r) :=
  inferInstanceAs (Decidable ((q.1 - p.1) * (r.2 - p.2) = (q.2 - p.2) * (r.1 - p.1)))

/-- Stop records used in concrete merge examples. -/
def exStopP : ProcessedStop := { defStop with stopId := r"CHI", stopName := r"Chicago" }

/-- A second stop record for concrete merge examples. -/
def exStopQ : ProcessedStop := { defStop with stopId := r"STL", stopName := r"St Louis" }

/-- A trip visiting the two example stops in order. -/
def exTripPQ : ProcessedTrip :=
  { tripId := r"t1", routeId := r"R1", trainNumber := r"5", direction := r""
    shapeId := r"", stops := [exStopP, exStopQ], monday := true, tuesday := true
    wednesday := true, thursday := true, friday := true, saturday := true
    sunday := true, startDate := r"20240101", endDate := r"20241231" }

/-- The same trip visiting the two example stops in reverse order. -/
def exTripQP : ProcessedTrip := { exTripPQ with stops := [exStopQ, exStopP] }

/-- A trip visiting only the first example stop. -/
def exTripP : ProcessedTrip := { exTripPQ with tripId := r"t2", stops := [exStopP] }

/-- An example route catalog entry. -/
def exRoute1 : ProcessedRoute := { defRoute with routeId := r"R1", routeName := r"One" }

/-- A second example route catalog entry. -/
def exRoute2 : ProcessedRoute := { defRoute with routeId := r"R2", routeName := r"Two" }

/-- A concrete merge-loop state whose two routes have different stop
sets. -/
def exStateC6 : MergeState :=
  { index := buildRouteIndexP [exRoute1, exRoute2]
    remove := []
    sched := [(r"R1", [exTripPQ]), (r"R2", [{ exTripP with routeId := r"R2" }])] }

/-- A merge group over the two mismatched example routes. -/
def exGroupC6 : RouteMergeGroup :=
  { routeIds := [r"R1", r"R2"], mergedName := r"Merged", primaryRouteId := none }

/-- A two-stop schedule: departure 10:00 at `(0, 0)`, arrival 11:00 at
`(1, 1)`, both on day offset 0. -/
def exTripAB : ProcessedTrip :=
  { tripId := r"tAB", routeId := r"R1", trainNumber := r"5", direction := r""
    shapeId := r"", monday := true, tuesday := true, wednesday := true
    thursday := true, friday := true, saturday := true, sunday := true
    startDate := r"", endDate := r""
    stops :=
      [⟨r"A", r"A", 1, 0, 0, r"", ⟨10, 0, 0⟩, ⟨10, 0, 0⟩, 0⟩,
       ⟨r"B", r"B", 2, 1, 1, r"", ⟨11, 0, 0⟩, ⟨11, 0, 0⟩, 0⟩] }

/-- A two-stop schedule whose anchored last arrival (01:00) precedes its
anchored first departure (23:00): a feed error a well-formed GTFS file
would express with a 25:00:00 arrival. -/
def exTripInverted : ProcessedTrip :=
  { exTripAB with stops :=
      [⟨r"A", r"A", 1, 0, 0, r"", ⟨23, 0, 0⟩, ⟨23, 0, 0⟩, 0⟩,
       ⟨r"B", r"B", 2, 1, 1, r"", ⟨1, 0, 0⟩, ⟨1, 0, 0⟩, 0⟩] }

/-- A three-stop schedule with a dwell interval: departure 10:00 at
`(0, 0)`, arrival 10:30 / departure 10:35 at `(1, 1)`, arrival 11:00 at
`(2, 2)`. -/
def exTripDwell : ProcessedTrip :=
  { exTripAB with stops :=
      [⟨r"A", r"A", 1, 0, 0, r"", ⟨10, 0, 0⟩, ⟨10, 0, 0⟩, 0⟩,
       ⟨r"B", r"B", 2, 1, 1, r"", ⟨10, 30, 0⟩, ⟨10, 35, 0⟩, 0⟩,
       ⟨r"C", r"C", 3, 2, 2, r"", ⟨11, 0, 0⟩, ⟨11, 0, 0⟩, 0⟩] }

/-- A constant axis-inference stand-in (the counterexample path below
never invokes it: with no shapes and no stop times the default axis is
used). -/
def constAxisEW : List (Rat × Rat) → DirectionAxis := fun _ => DirectionAxis.eastWest

/-- A raw route for the direction-option examples. -/
def exC1route : GTFSRoute :=
  { route_id := r"R", agency_id := r"51", route_short_name := r""
    route_long_name := r"Test", route_type := 2, route_url := r""
    route_color := r"", route_text_color := r"" }

/-- A trip of the example route with an empty headsign and
`direction_id = 0`. -/
def exC1tripA : GTFSTrip :=
  { route_id := r"R", service_id := r"s", trip_id := r"t1", trip_short_name := r"5"
    direction_id := 0, shape_id := r"", trip_headsign := r"" }

/-- A second trip of the example route with an empty headsign and
`direction_id = 1`. -/
def exC1tripB : GTFSTrip :=
  { exC1tripA with trip_id := r"t2", trip_short_name := r"6", direction_id := 1 }

/-- The processed route the example produces: both generic east-west
labels, although every headsign is empty. -/
def prC1 : ProcessedRoute :=
  { routeId := r"R", routeName := r"Test", routeNumbers := [r"5", r"6"]
    directionAxis := .eastWest
    directionOptions := [.westbound, .eastbound]
    shapeIds := [], color := r"", url := r"", category := none }


/-! ### Examples and predicates for the route-merge idempotence claim -/

/-- A route with the given id and otherwise default fields. -/
def mkC5Route (rid : String) : ProcessedRoute := { defRoute with routeId := rid }

/-- A one-stop trip of the given route. -/
def mkC5Trip (rid : String) : ProcessedTrip :=
  { tripId := rid, routeId := rid, trainNumber := r"1", direction := r"", shapeId := r""
    stops := [{ defStop with stopId := r"ST" }]
    monday := false, tuesday := false, wednesday := false, thursday := false
    friday := false, saturday := false, sunday := false
    startDate := r"", endDate := r"" }

/-- Merge group listing the same id twice. -/
def exC5groupDup : RouteMergeGroup :=
  { routeIds := [r"A", r"A"], mergedName := r"A / A", primaryRouteId := some r"A" }

/-- Schedules for the duplicate-id group. -/
def exC5schedDup : MapL (List ProcessedTrip) := [(r"A", [mkC5Trip r"A"])]

/-- Six one-trip routes sharing one stop. -/
def exC5routes6 : List ProcessedRoute :=
  [mkC5Route r"p", mkC5Route r"q", mkC5Route r"y", mkC5Route r"w",
   mkC5Route r"a", mkC5Route r"b"]

/-- Their schedules. -/
def exC5sched6 : MapL (List ProcessedTrip) :=
  [(r"p", [mkC5Trip r"p"]), (r"q", [mkC5Trip r"q"]), (r"y", [mkC5Trip r"y"]),
   (r"w", [mkC5Trip r"w"]), (r"a", [mkC5Trip r"a"]), (r"b", [mkC5Trip r"b"])]

/-- Merge groups whose stated primary ids are not members of their
groups (the second group defaults to its first member). -/
def exC5groups6 : List RouteMergeGroup :=
  [{ routeIds := [r"q", r"y"], mergedName := r"QY", primaryRouteId := some r"w" },
   { routeIds := [r"p", r"q"], mergedName := r"PQ", primaryRouteId := none },
   { routeIds := [r"a", r"b"], mergedName := r"AB", primaryRouteId := some r"q" }]


/-- A validated merge scenario for the idempotence witness. -/
def exC5groupOK : RouteMergeGroup :=
  { routeIds := [r"R1", r"R2"], mergedName := r"One / Two", primaryRouteId := some r"R1" }

/-- Its schedules: both member routes visit the stop set of `exTripPQ`. -/
def exC5schedOK : MapL (List ProcessedTrip) :=
  [(r"R1", [exTripPQ]), (r"R2", [exTripQP])]

/-- Hypotheses under which `applyRouteMerges` is idempotent: within each
group no id is listed twice, and a group large enough to merge names an
effective primary id that is one of its members. -/
def goodGroup (g : RouteMergeGroup) : Prop :=
  g.routeIds.Nodup ∧ (2 ≤ g.routeIds.length → effPrimary g ∈ g.routeIds)

instance decGoodGroup (g : RouteMergeGroup) : Decidable (goodGroup g) :=
  inferInstanceAs (Decidable (g.routeIds.Nodup ∧
    (2 ≤ g.routeIds.length → effPrimary g ∈ g.routeIds)))

/-- How schedule buckets may evolve over the group loop: an
empty-or-missing bucket never becomes nonempty, and a bucket that is
nonempty afterwards was nonempty before with the same unique stop ids. -/
def RelS (s s2 : MapL (List ProcessedTrip)) : Prop :=
  ∀ k, ((getM s k).getD [] = [] → (getM s2 k).getD [] = []) ∧
    ((getM s2 k).getD [] ≠ [] →
      getUniqueStopIds ((getM s2 k).getD []) = getUniqueStopIds ((getM s k).getD []) ∧
      (getM s k).getD [] ≠ [])

/-- Invariant of the route index over the group loop: every id of the
original routes array resolves to a route carrying that id. -/
def IdxInv (ids : List String) (idx : MapL ProcessedRoute) : Prop :=
  ∀ k ∈ ids, ∃ v, getM idx k = some v ∧ v.routeId = k

/-- What the group loop guarantees about each processed group: fewer
than two of its ids are original ids surviving removal, or its
validation fails on the final schedules, or every non-primary member id
is marked for removal.  Each disjunct makes a second pass skip the
group. -/
def GDone (ids : List String) (g : RouteMergeGroup) (st : MergeState) : Prop :=
  (g.routeIds.filter (fun k => decide (k ∈ ids ∧ ¬ k ∈ st.remove))).length < 2 ∨
  validateMergeGroup g.routeIds st.sched = false ∨
  (∀ rid ∈ g.routeIds, rid ≠ effPrimary g → rid ∈ st.remove)

/-! # Theorems

First some library lemmas about the embedded JavaScript primitives, then
one theorem per specification claim (with witnesses and counterexamples
where required). -/

/-! ## Splitting lemmas -/

/-- A string without a colon splits to itself. -/
theorem splitOnColon_no_colon (s : List Char) (h : (':') ∉ s) :
    splitOnColon s = [s] := by
  induction s with
  | nil => rfl
  | cons c rest ih =>
    have hc : c ≠ ':' := fun hc => h (hc ▸ List.mem_cons_self c rest)
    have hrest : (':') ∉ rest := fun hm => h (List.mem_cons_of_mem c hm)
    simp only [splitOnColon, ih hrest, if_neg hc]

/-- Splitting at the first colon: the colon-free prefix becomes the first
piece. -/
theorem splitOnColon_append (a r : List Char) (h : (':') ∉ a) :
    splitOnColon (a ++ ':' :: r) = a :: splitOnColon r := by
  induction a with
  | nil => simp [splitOnColon]
  | cons c rest ih =>
    have hc : c ≠ ':' := fun hc => h (hc ▸ List.mem_cons_self c rest)
    have hrest : (':') ∉ rest := fun hm => h (List.mem_cons_of_mem c hm)
    rw [List.cons_append]
    simp only [splitOnColon, if_neg hc]
    rw [ih hrest]

/-- The split of a nonempty-piece-count invariant: `splitOnColon` never
returns the empty list. -/
theorem splitOnColon_ne_nil (s : List Char) : splitOnColon s ≠ [] := by
  induction s with
  | nil => simp [splitOnColon]
  | cons c rest ih =>
    simp only [splitOnColon]
    split
    · simp
    · match h : splitOnColon rest with
      | [] => exact absurd h ih
      | x :: t => simp

/-! ## C4: day-offset computation of `parseGTFSTime` -/

/-- C4.  For every well-formed time string `H:M:S` (three colon-free
parts whose `parseInt` values are `H ≥ 0`, `M`, `S`), `parseGTFSTime`
returns `hours = H mod 24`, `dayOffset = H div 24` (floor), `minutes`,
`seconds` as parsed, and `totalMinutes = H * 60 + M`. -/
theorem C4_parseGTFSTime_wellformed (p0 p1 p2 : List Char) (H M S : Int)
    (hc0 : (':') ∉ p0) (hc1 : (':') ∉ p1) (hc2 : (':') ∉ p2)
    (h0 : parseIntJS p0 = some H) (h1 : parseIntJS p1 = some M)
    (h2 : parseIntJS p2 = some S) (hH : 0 ≤ H) :
    parseGTFSTime (p0 ++ ':' :: (p1 ++ ':' :: p2)) =
      some { hours := some (H % 24), minutes := some M, seconds := some S
             dayOffset := some (H / 24), totalMinutes := some (H * 60 + M) } := by
  have hs : splitOnColon (p0 ++ ':' :: (p1 ++ ':' :: p2)) = [p0, p1, p2] := by
    rw [splitOnColon_append p0 (p1 ++ ':' :: p2) hc0,
      splitOnColon_append p1 p2 hc1, splitOnColon_no_colon p2 hc2]
  have htm : H.tmod 24 = H % 24 := by
    rw [Int.tmod_eq_emod hH (by norm_num)]
  have hfd : H.fdiv 24 = H / 24 := Int.fdiv_eq_ediv H (by norm_num)
  simp only [parseGTFSTime, hs, h0, h1, h2]
  simp [htm, hfd]

/-- Witness for C4 at the concrete input `"25:30:00"`: parsed hour 1,
minute 30, day offset 1, total minutes 1530. -/
theorem C4_parseGTFSTime_wellformed_witness :
    parseGTFSTime ['2', '5', ':', '3', '0', ':', '0', '0'] =
      some { hours := some 1, minutes := some 30, seconds := some 0
             dayOffset := some 1, totalMinutes := some 1530 } := by
  have h := C4_parseGTFSTime_wellformed ['2', '5'] ['3', '0'] ['0', '0'] 25 30 0
    (by decide) (by decide) (by decide) (by decide) (by decide) (by decide)
    (by norm_num)
  simpa using h

/-! ## C10: the only failure mode of `parseGTFSTime` -/

/-- C10.  `parseGTFSTime` raises (returns `none`) exactly when the input
does not split into three colon-separated parts; on every three-part
input it returns a record (fields may be `NaN`) and never raises —
unlike the permissive row-field `parseInt` defaulting, no numeric check
is involved in the failure. -/
theorem C10_parseGTFSTime_raises_iff (timeStr : List Char) :
    (parseGTFSTime timeStr).isSome ↔ (splitOnColon timeStr).length = 3 := by
  constructor
  · intro h
    by_contra hlen
    have : parseGTFSTime timeStr = none := by
      unfold parseGTFSTime
      split
      · rename_i p0 p1 p2 heq
        exact absurd (by simp [heq]) hlen
      · rfl
    rw [this] at h
    simp at h
  · intro hlen
    obtain ⟨a, b, c, habc⟩ := List.length_eq_three.mp hlen
    unfold parseGTFSTime
    rw [habc]
    simp

/-! ## Insertion sort lemmas -/

/-- `insertLe` is a permutation of consing. -/
theorem insertLe_perm {α : Type} (le : α → α → Bool) (x : α) (l : List α) :
    (insertLe le x l).Perm (x :: l) := by
  induction l with
  | nil => rfl
  | cons y ys ih =>
    unfold insertLe
    split
    · rfl
    · exact (ih.cons y).trans (List.Perm.swap x y ys)

/-- `insSort` permutes its input. -/
theorem insSort_perm {α : Type} (le : α → α → Bool) (l : List α) :
    (insSort le l).Perm l := by
  induction l with
  | nil => rfl
  | cons x xs ih => exact (insertLe_perm le x (insSort le xs)).trans (ih.cons x)

/-- `insertLe` preserves sortedness for a transitive total comparator. -/
theorem insertLe_pairwise {α : Type} (le : α → α → Bool)
    (htrans : ∀ a b c, le a b = true → le b c = true → le a c = true)
    (htot : ∀ a b, (le a b || le b a) = true) (x : α) (l : List α)
    (hl : List.Pairwise (fun a b => le a b = true) l) :
    List.Pairwise (fun a b => le a b = true) (insertLe le x l) := by
  induction l with
  | nil => simp [insertLe]
  | cons y ys ih =>
    unfold insertLe
    rcases hl with _ | ⟨hy, hys⟩
    split
    · rename_i hxy
      refine List.Pairwise.cons ?_ (List.Pairwise.cons hy hys)
      intro b hb
      rcases List.mem_cons.mp hb with h | h
      · rw [h]; exact hxy
      · exact htrans x y b hxy (hy b h)
    · rename_i hxy
      have hyx : le y x = true := by
        have := htot x y
        rcases Bool.or_eq_true_iff.mp this with h | h
        · exact absurd h hxy
        · exact h
      refine List.Pairwise.cons ?_ (ih hys)
      intro b hb
      have hbmem := (insertLe_perm le x ys).mem_iff.mp hb
      rcases List.mem_cons.mp hbmem with h | h
      · rw [h]; exact hyx
      · exact hy b h

/-- `insSort` sorts for a transitive total comparator. -/
theorem insSort_pairwise {α : Type} (le : α → α → Bool)
    (htrans : ∀ a b c, le a b = true → le b c = true → le a c = true)
    (htot : ∀ a b, (le a b || le b a) = true) (l : List α) :
    List.Pairwise (fun a b => le a b = true) (insSort le l) := by
  induction l with
  | nil => exact List.Pairwise.nil
  | cons x xs ih => exact insertLe_pairwise le htrans htot x (insSort le xs) ih

/-! ## Canonical stop-id lists (`getUniqueStopIds`) -/

/-- `charListLe` is transitive. -/
theorem charListLe_trans (a b c : List Char) (hab : charListLe a b = true)
    (hbc : charListLe b c = true) : charListLe a c = true := by
  induction a generalizing b c with
  | nil => rfl
  | cons x as ih =>
    cases b with
    | nil => exact absurd hab (by simp [charListLe])
    | cons y bs =>
      cases c with
      | nil => exact absurd hbc (by simp [charListLe])
      | cons z cs =>
        simp only [charListLe] at hab hbc ⊢
        split at hab
        · rename_i hxy
          split
          · rfl
          · rename_i hzx
            split at hbc
            · rename_i hyz
              omega
            · split at hbc
              · exact absurd hbc (by simp)
              · omega
        · split at hab
          · exact absurd hab (by simp)
          · rename_i hyx hxy2
            split at hbc
            · rename_i hyz
              rw [if_pos (by omega)]
            · split at hbc
              · exact absurd hbc (by simp)
              · rename_i hzy hyz2
                rw [if_neg (by omega), if_neg (by omega)]
                exact ih bs cs hab hbc

/-- `charListLe` is total. -/
theorem charListLe_total (a b : List Char) :
    (charListLe a b || charListLe b a) = true := by
  induction a generalizing b with
  | nil => simp [charListLe]
  | cons x as ih =>
    cases b with
    | nil => simp [charListLe]
    | cons y bs =>
      simp only [charListLe]
      rcases Nat.lt_trichotomy x.toNat y.toNat with h | h | h
      · simp only [if_pos h]
        simp
      · simp only [if_neg (show ¬ x.toNat < y.toNat by omega),
          if_neg (show ¬ y.toNat < x.toNat by omega)]
        exact ih bs
      · simp only [if_pos h, if_neg (show ¬ x.toNat < y.toNat by omega)]
        simp

/-- `charListLe` is antisymmetric. -/
theorem charListLe_antisymm (a b : List Char) (hab : charListLe a b = true)
    (hba : charListLe b a = true) : a = b := by
  induction a generalizing b with
  | nil =>
    cases b with
    | nil => rfl
    | cons y bs => exact absurd hba (by simp [charListLe])
  | cons x as ih =>
    cases b with
    | nil => exact absurd hab (by simp [charListLe])
    | cons y bs =>
      simp only [charListLe] at hab hba
      split at hab
      · rename_i hxy
        rw [if_neg (by omega), if_pos hxy] at hba
        exact absurd hba (by simp)
      · split at hab
        · exact absurd hab (by simp)
        · rename_i hyx hxy
          have hn : x.toNat = y.toNat := by omega
          have hx : x = y := Char.ext (UInt32.toNat.inj hn)
          rw [if_neg (by omega), if_neg (by omega)] at hba
          rw [hx, ih bs hab hba]

/-- `strLe` is transitive. -/
theorem strLe_trans (a b c : String) (hab : strLe a b = true) (hbc : strLe b c = true) :
    strLe a c = true :=
  charListLe_trans a.data b.data c.data hab hbc

/-- `strLe` is total. -/
theorem strLe_total (a b : String) : (strLe a b || strLe b a) = true :=
  charListLe_total a.data b.data

/-- `strLe` is antisymmetric. -/
theorem strLe_antisymm (a b : String) (hab : strLe a b = true)
    (hba : strLe b a = true) : a = b := by
  cases a with
  | mk da =>
    cases b with
    | mk db =>
      have := charListLe_antisymm da db hab hba
      rw [this]

/-- Membership in the canonical sorted unique stop-id list. -/
theorem mem_getUniqueStopIds (x : String) (trips : List ProcessedTrip) :
    x ∈ getUniqueStopIds trips ↔ x ∈ idsOf trips := by
  unfold getUniqueStopIds
  rw [(insSort_perm strLe _).mem_iff, List.mem_dedup]

/-- The canonical list is sorted by the comparator. -/
theorem getUniqueStopIds_sorted (trips : List ProcessedTrip) :
    List.Pairwise (fun a b => strLe a b = true) (getUniqueStopIds trips) := by
  have h := insSort_pairwise strLe strLe_trans strLe_total ((idsOf trips).dedup)
  unfold getUniqueStopIds
  exact h

/-- The canonical list has no duplicates. -/
theorem getUniqueStopIds_nodup (trips : List ProcessedTrip) :
    (getUniqueStopIds trips).Nodup := by
  unfold getUniqueStopIds
  exact ((insSort_perm strLe _).nodup_iff).mpr (List.nodup_dedup _)

/-- The canonical lists of two trip collections agree exactly when the
same stop ids occur in both. -/
theorem getUniqueStopIds_eq_iff (A B : List ProcessedTrip) :
    getUniqueStopIds A = getUniqueStopIds B ↔ (∀ x, x ∈ idsOf A ↔ x ∈ idsOf B) := by
  constructor
  · intro h x
    rw [← mem_getUniqueStopIds, ← mem_getUniqueStopIds, h]
  · intro h
    refine @List.eq_of_perm_of_sorted String (fun a b => strLe a b = true)
      ⟨fun a b hab hba => strLe_antisymm a b hab hba⟩ _ _ ?_
      (getUniqueStopIds_sorted A) (getUniqueStopIds_sorted B)
    refine (List.perm_ext_iff_of_nodup (getUniqueStopIds_nodup A)
      (getUniqueStopIds_nodup B)).mpr ?_
    intro x
    rw [mem_getUniqueStopIds, mem_getUniqueStopIds]
    exact h x

/-- `haveIdenticalStops` decides equality of the two canonical lists. -/
theorem haveIdenticalStops_iff (A B : List ProcessedTrip) :
    haveIdenticalStops A B = true ↔ getUniqueStopIds A = getUniqueStopIds B := by
  unfold haveIdenticalStops
  generalize getUniqueStopIds A = a
  generalize getUniqueStopIds B = b
  induction a generalizing b with
  | nil =>
    cases b <;> simp
  | cons x xs ih =>
    cases b with
    | nil => simp
    | cons y ys =>
      have := ih ys
      simp only [List.length_cons, List.zip_cons_cons, List.all_cons, beq_iff_eq,
        Bool.and_eq_true, decide_eq_true_eq] at this ⊢
      constructor
      · rintro ⟨hlen, hy, hall⟩
        exact List.cons_eq_cons.mpr ⟨hy, this.mp ⟨by omega, hall⟩⟩
      · intro h
        obtain ⟨h1, h2⟩ := List.cons_eq_cons.mp h
        have := this.mpr h2
        exact ⟨by omega, h1, this.2⟩

/-- Membership in `idsOf` through the trip list. -/
theorem mem_idsOf (x : String) (A : List ProcessedTrip) :
    x ∈ idsOf A ↔ ∃ t ∈ A, x ∈ t.stops.map (fun st => st.stopId) := by
  simp [idsOf, List.mem_flatten]

/-- Rewriting `haveIdenticalStops` along an equality of canonical lists
on the left argument. -/
theorem haveIdenticalStops_congr_left (A A2 B : List ProcessedTrip)
    (h : getUniqueStopIds A = getUniqueStopIds A2) :
    haveIdenticalStops A B = haveIdenticalStops A2 B := by
  unfold haveIdenticalStops
  rw [h]

/-- Rewriting `haveIdenticalStops` along an equality of canonical lists
on the right argument. -/
theorem haveIdenticalStops_congr_right (A B B2 : List ProcessedTrip)
    (h : getUniqueStopIds B = getUniqueStopIds B2) :
    haveIdenticalStops A B = haveIdenticalStops A B2 := by
  unfold haveIdenticalStops
  rw [h]

/-- Stop ids occurring after permuting each trip list of stops. -/
theorem idsOf_iff_of_forall₂ (A A2 : List ProcessedTrip)
    (h : List.Forall₂ (fun t t2 => t.stops.Perm t2.stops) A A2) (x : String) :
    x ∈ idsOf A ↔ x ∈ idsOf A2 := by
  rw [mem_idsOf, mem_idsOf]
  induction h with
  | nil => simp
  | cons hR hF ih =>
    rename_i a b l1 l2
    simp only [List.mem_cons]
    constructor
    · rintro ⟨t, ht | ht, hx⟩
      · exact ⟨b, Or.inl rfl, ((hR.map _).mem_iff).mp (ht ▸ hx)⟩
      · obtain ⟨t2, ht2, hx2⟩ := ih.mp ⟨t, ht, hx⟩
        exact ⟨t2, Or.inr ht2, hx2⟩
    · rintro ⟨t, ht | ht, hx⟩
      · exact ⟨a, Or.inl rfl, ((hR.map _).mem_iff).mpr (ht ▸ hx)⟩
      · obtain ⟨t2, ht2, hx2⟩ := ih.mpr ⟨t, ht, hx⟩
        exact ⟨t2, Or.inr ht2, hx2⟩

/-! ## C7: `haveIdenticalStops` is symmetric and order-independent -/

/-- C7.  `haveIdenticalStops` is symmetric, and invariant under
permuting the trips of either argument as well as under permuting the
stops inside any trip of either argument. -/
theorem C7_haveIdenticalStops_symm_orderfree :
    (∀ A B, haveIdenticalStops A B = haveIdenticalStops B A) ∧
    (∀ A A2 B, A.Perm A2 →
      haveIdenticalStops A B = haveIdenticalStops A2 B ∧
      haveIdenticalStops B A = haveIdenticalStops B A2) ∧
    (∀ A A2 B, List.Forall₂ (fun t t2 => t.stops.Perm t2.stops) A A2 →
      haveIdenticalStops A B = haveIdenticalStops A2 B ∧
      haveIdenticalStops B A = haveIdenticalStops B A2) := by
  refine ⟨fun A B => ?_, fun A A2 B h => ?_, fun A A2 B h => ?_⟩
  · rw [Bool.eq_iff_iff, haveIdenticalStops_iff, haveIdenticalStops_iff]
    exact eq_comm
  · have hc : getUniqueStopIds A = getUniqueStopIds A2 := by
      rw [getUniqueStopIds_eq_iff]
      intro x
      rw [mem_idsOf, mem_idsOf]
      constructor
      · rintro ⟨t, ht, hx⟩
        exact ⟨t, h.mem_iff.mp ht, hx⟩
      · rintro ⟨t, ht, hx⟩
        exact ⟨t, h.mem_iff.mpr ht, hx⟩
    exact ⟨haveIdenticalStops_congr_left A A2 B hc,
      haveIdenticalStops_congr_right B A A2 hc⟩
  · have hc : getUniqueStopIds A = getUniqueStopIds A2 := by
      rw [getUniqueStopIds_eq_iff]
      exact idsOf_iff_of_forall₂ A A2 h
    exact ⟨haveIdenticalStops_congr_left A A2 B hc,
      haveIdenticalStops_congr_right B A A2 hc⟩

/-- Witness for C7: the second and third conjuncts applied to concrete
permuted trip lists, with every hypothesis discharged on concrete data. -/
theorem C7_haveIdenticalStops_symm_orderfree_witness :
    (haveIdenticalStops [exTripPQ, exTripP] [exTripPQ] =
      haveIdenticalStops [exTripP, exTripPQ] [exTripPQ]) ∧
    (haveIdenticalStops [exTripPQ] [exTripPQ, exTripP] =
      haveIdenticalStops [exTripPQ] [exTripQP, exTripP]) := by
  constructor
  · exact (C7_haveIdenticalStops_symm_orderfree.2.1 [exTripPQ, exTripP]
      [exTripP, exTripPQ] [exTripPQ] (List.Perm.swap _ _ _)).1
  · exact (C7_haveIdenticalStops_symm_orderfree.2.2 [exTripPQ, exTripP]
      [exTripQP, exTripP] [exTripPQ]
      (List.Forall₂.cons (List.Perm.swap _ _ _) (List.forall₂_same.mpr
        (by intro t ht; simp)))).2

/-- `haveIdenticalStops` is reflexive. -/
theorem haveIdenticalStops_self (A : List ProcessedTrip) :
    haveIdenticalStops A A = true :=
  (haveIdenticalStops_iff A A).mpr rfl

/-! ## C6: a merge group failing validation is skipped without effect -/

/-- C6.  If some member of a merge group has no trips, or some member
differs from the first member in its unique stop-id set, the group loop
body leaves the route index, the removal set and the schedules map
untouched: no catalog entry is altered or removed and no schedule bucket
is reassigned or deleted for that group. -/
theorem C6_failed_validation_skips_group (st : MergeState) (g : RouteMergeGroup)
    (h2 : 2 ≤ g.routeIds.length)
    (hfail : (∃ id ∈ g.routeIds, (getM st.sched id).getD [] = []) ∨
      (∃ id ∈ g.routeIds,
        haveIdenticalStops ((getM st.sched (g.routeIds.headD "")).getD [])
          ((getM st.sched id).getD []) = false)) :
    applyOneGroup st g = st := by
  obtain ⟨r0, rest, hr⟩ : ∃ r0 rest, g.routeIds = r0 :: rest := by
    cases hg : g.routeIds with
    | nil => rw [hg] at h2; simp at h2
    | cons a t => exact ⟨a, t, rfl⟩
  have hv : validateMergeGroup g.routeIds st.sched = false := by
    unfold validateMergeGroup
    rw [if_neg (by omega)]
    rcases hfail with ⟨id, hid, hempty⟩ | ⟨id, hid, hmis⟩
    · have hany : (g.routeIds.map (fun id => (getM st.sched id).getD [])).any
          (fun trips => trips.length == 0) = true := by
        refine List.any_eq_true.mpr ⟨(getM st.sched id).getD [], ?_, ?_⟩
        · exact List.mem_map.mpr ⟨id, hid, rfl⟩
        · rw [hempty]; rfl
      simp only [hany, if_true]
    · by_cases hany : (g.routeIds.map (fun id => (getM st.sched id).getD [])).any
          (fun trips => trips.length == 0) = true
      · simp only [hany, if_true]
      · rw [if_neg (by simp [hany])]
        have hhead : (g.routeIds.map (fun id => (getM st.sched id).getD [])).headD [] =
            (getM st.sched (g.routeIds.headD "")).getD [] := by
          rw [hr]; rfl
        have hidr : id ∈ rest := by
          have hmem : id ∈ r0 :: rest := by rw [← hr]; exact hid
          rcases List.mem_cons.mp hmem with h | h
          · exfalso
            have hh : g.routeIds.headD "" = r0 := by rw [hr]; rfl
            rw [hh, h] at hmis
            rw [haveIdenticalStops_self] at hmis
            exact absurd hmis (by decide)
          · exact h
        have htail : (g.routeIds.map (fun id => (getM st.sched id).getD [])).tail =
            rest.map (fun id => (getM st.sched id).getD []) := by
          rw [hr]; rfl
        rw [htail]
        rcases hall : (rest.map (fun id => (getM st.sched id).getD [])).all
            (fun trips => haveIdenticalStops
              ((g.routeIds.map (fun id2 => (getM st.sched id2).getD [])).headD []) trips) with _ | _
        · rfl
        · exfalso
          have := List.all_eq_true.mp hall ((getM st.sched id).getD [])
            (List.mem_map.mpr ⟨id, hidr, rfl⟩)
          rw [hhead] at this
          rw [hmis] at this
          exact Bool.false_ne_true this
  simp only [applyOneGroup, hv]
  simp

/-- Witness for C6: on the concrete mismatched state the group step is
the identity. -/
theorem C6_failed_validation_skips_group_witness :
    applyOneGroup exStateC6 exGroupC6 = exStateC6 :=
  C6_failed_validation_skips_group exStateC6 exGroupC6 (by decide)
    (Or.inr ⟨r"R2", by decide, by decide⟩)

/-! ## Bracketing and near-match loops of the position query -/

/-- The bracketing loop finds nothing when no consecutive
departure/arrival pair encloses the target. -/
theorem findBracket_eq_none (base target : Int) (l : List ProcessedStop)
    (h : ∀ i < l.length - 1,
      ¬(anchorTime base (l.getD i defStop).departureTime (l.getD i defStop).dayOffset ≤
          target ∧
        target ≤ anchorTime base (l.getD (i + 1) defStop).arrivalTime
          (l.getD (i + 1) defStop).dayOffset)) :
    findBracket base target l = none := by
  induction l with
  | nil => rfl
  | cons a rest ih =>
    cases rest with
    | nil => rfl
    | cons b rrest =>
      have h0 := h 0 (by simp)
      simp only [List.getD_cons_zero, List.getD_cons_succ] at h0
      unfold findBracket
      rw [if_neg h0]
      refine ih ?_
      intro i hi
      have := h (i + 1) (by simp at hi ⊢; omega)
      simpa only [List.getD_cons_succ] using this

/-- The near-match loop returns the first stop within 60 seconds of the
target, with its own coordinates. -/
theorem findNear_spec (base target : Int) (l : List ProcessedStop) (j : Nat)
    (hj : j < l.length)
    (hnear : |target - anchorTime base (l.getD j defStop).departureTime
      (l.getD j defStop).dayOffset| < 60)
    (hfirst : ∀ k < j, ¬(|target - anchorTime base (l.getD k defStop).departureTime
      (l.getD k defStop).dayOffset| < 60)) :
    findNear base target l = some
      { lat := (l.getD j defStop).lat
        lng := (l.getD j defStop).lng
        nearestStops := ((l.getD j defStop).stopName,
          if j + 1 < l.length then (l.getD (j + 1) defStop).stopName
          else (l.getD j defStop).stopName) } := by
  induction l generalizing j with
  | nil => simp at hj
  | cons st rest ih =>
    cases j with
    | zero =>
      simp only [List.getD_cons_zero] at hnear ⊢
      unfold findNear
      rw [if_pos hnear]
      cases rest with
      | nil => simp
      | cons r rrest => simp
    | succ j =>
      have h0 := hfirst 0 (Nat.succ_pos j)
      simp only [List.getD_cons_zero] at h0
      unfold findNear
      rw [if_neg h0]
      have hj2 : j < rest.length := by simp at hj; omega
      have := ih j hj2 (by simpa only [List.getD_cons_succ] using hnear)
        (fun k hk => by
          have := hfirst (k + 1) (by omega)
          simpa only [List.getD_cons_succ] using this)
      rw [this]
      simp only [List.getD_cons_succ, List.length_cons]
      congr 2
      by_cases hlt : j + 1 < rest.length
      · rw [if_pos hlt, if_pos (by omega)]
      · rw [if_neg hlt, if_neg (by omega)]

/-! ## C3: the transit window of the position query -/

/-- C3 (amended).  For a schedule of at least two stops whose anchored
first departure does not exceed its anchored last arrival, the position
query returns nothing strictly before the first departure and strictly
after the last arrival (in particular one second before departure), and
returns a position exactly at the first departure. -/
theorem C3_transit_window (schedule : ProcessedTrip) (base : Int)
    (h2 : 2 ≤ schedule.stops.length)
    (hw : firstDepartureOf base schedule ≤ lastArrivalOf base schedule) :
    (∀ t : Int, t < firstDepartureOf base schedule ∨ lastArrivalOf base schedule < t →
      getTrainPositionAtTime schedule t base = none) ∧
    getTrainPositionAtTime schedule (firstDepartureOf base schedule - 1) base = none ∧
    (getTrainPositionAtTime schedule (firstDepartureOf base schedule) base).isSome := by
  have part1 : ∀ t : Int, t < firstDepartureOf base schedule ∨
      lastArrivalOf base schedule < t →
      getTrainPositionAtTime schedule t base = none := by
    intro t ht
    simp only [getTrainPositionAtTime]
    by_cases hlen : schedule.stops.length < 2
    · rw [if_pos hlen]
    · rw [if_neg hlen,
        if_pos (show t < firstDepartureOf base schedule ∨
          t > lastArrivalOf base schedule from ht)]
  refine ⟨part1, part1 _ (Or.inl (by omega)), ?_⟩
  simp only [getTrainPositionAtTime]
  rw [if_neg (by omega)]
  rw [if_neg (by omega)]
  obtain ⟨a, rest, hst⟩ : ∃ a rest, schedule.stops = a :: rest := by
    cases hs : schedule.stops with
    | nil => rw [hs] at h2; simp at h2
    | cons x t => exact ⟨x, t, rfl⟩
  cases hfb : findBracket base (firstDepartureOf base schedule) schedule.stops with
  | some pos => simp
  | none =>
    simp only []
    rw [hst]
    unfold findNear
    rw [if_pos ?_]
    · simp
    · have : firstDepartureOf base schedule =
          anchorTime base a.departureTime a.dayOffset := by
        unfold firstDepartureOf
        rw [hst]
        rfl
      rw [this]
      simp

/-- Witness for C3 on the concrete two-stop schedule (first departure at
36000 s): one second early yields nothing, the exact departure instant
yields a position. -/
theorem C3_transit_window_witness :
    2 ≤ exTripAB.stops.length ∧
    firstDepartureOf 0 exTripAB ≤ lastArrivalOf 0 exTripAB ∧
    getTrainPositionAtTime exTripAB (firstDepartureOf 0 exTripAB - 1) 0 = none ∧
    (getTrainPositionAtTime exTripAB (firstDepartureOf 0 exTripAB) 0).isSome :=
  ⟨by decide, by decide,
    (C3_transit_window exTripAB 0 (by decide) (by decide)).2.1,
    (C3_transit_window exTripAB 0 (by decide) (by decide)).2.2⟩

/-- Counterexample to C3 as stated: on a schedule whose anchored last
arrival precedes its anchored first departure, the query exactly at the
first departure returns nothing (the claim promises a position for every
schedule with at least two stops). -/
theorem C3_transit_window_counterexample :
    2 ≤ exTripInverted.stops.length ∧
    getTrainPositionAtTime exTripInverted (firstDepartureOf 0 exTripInverted) 0 = none := by
  decide

/-! ## C2: the 60-second near-match rule -/

/-- C2 (amended).  The 60-second rule applies only after the bracketing
search fails: when the target is inside the transit window, no
consecutive departure/arrival interval contains it, and stop `j` is the
first stop whose anchored departure is within 60 seconds of the target,
the query returns exactly the coordinates of stop `j`.  (Inside a
bracketed interval the position is interpolated instead, even within 60
seconds of a stop instant; see the counterexample.) -/
theorem C2_nearmatch_after_brackets (schedule : ProcessedTrip) (base target : Int)
    (j : Nat) (h2 : 2 ≤ schedule.stops.length)
    (hwin : firstDepartureOf base schedule ≤ target ∧
      target ≤ lastArrivalOf base schedule)
    (hnb : ∀ i < schedule.stops.length - 1,
      ¬(anchorTime base (schedule.stops.getD i defStop).departureTime
          (schedule.stops.getD i defStop).dayOffset ≤ target ∧
        target ≤ anchorTime base (schedule.stops.getD (i + 1) defStop).arrivalTime
          (schedule.stops.getD (i + 1) defStop).dayOffset))
    (hj : j < schedule.stops.length)
    (hnear : |target - anchorTime base (schedule.stops.getD j defStop).departureTime
      (schedule.stops.getD j defStop).dayOffset| < 60)
    (hfirst : ∀ k < j,
      ¬(|target - anchorTime base (schedule.stops.getD k defStop).departureTime
        (schedule.stops.getD k defStop).dayOffset| < 60)) :
    getTrainPositionAtTime schedule target base = some
      { lat := (schedule.stops.getD j defStop).lat
        lng := (schedule.stops.getD j defStop).lng
        nearestStops := ((schedule.stops.getD j defStop).stopName,
          if j + 1 < schedule.stops.length then
            (schedule.stops.getD (j + 1) defStop).stopName
          else (schedule.stops.getD j defStop).stopName) } := by
  simp only [getTrainPositionAtTime]
  rw [if_neg (by omega)]
  rw [if_neg (by omega)]
  rw [findBracket_eq_none base target schedule.stops hnb]
  exact findNear_spec base target schedule.stops j hj hnear hfirst

/-- Witness for C2 on the dwell schedule: at 10:34:30 (38070 s), inside
the dwell of the middle stop and 30 s before its departure, the query
returns exactly the middle stop. -/
theorem C2_nearmatch_after_brackets_witness :
    getTrainPositionAtTime exTripDwell 38070 0 =
      some { lat := 1, lng := 1, nearestStops := (r"B", r"C") } := by
  rw [C2_nearmatch_after_brackets exTripDwell 0 38070 1 (by decide) (by decide)
    (by decide) (by decide) (by decide) (by decide)]
  decide

unseal Rat.add Rat.mul Rat.inv Rat.sub in
/-- Counterexample to C2 as stated: 30 seconds after the first departure
of the two-stop schedule, within 60 seconds of the anchored instant of
that stop, the query returns the interpolated point `(1/120, 1/120)`,
which is the coordinate of neither stop. -/
theorem C2_nearmatch_counterexample :
    |(36030 : Int) - anchorTime 0 (exTripAB.stops.getD 0 defStop).departureTime
      (exTripAB.stops.getD 0 defStop).dayOffset| < 60 ∧
    getTrainPositionAtTime exTripAB 36030 0 =
      some { lat := 1 / 120, lng := 1 / 120, nearestStops := (r"A", r"B") } ∧
    (1 / 120 : Rat) ≠ (exTripAB.stops.getD 0 defStop).lat ∧
    (1 / 120 : Rat) ≠ (exTripAB.stops.getD 1 defStop).lat := by
  decide

/-! ## Geometry of the squared perpendicular distance -/

/-- Denominator positivity for a nondegenerate chord. -/
theorem chordDen_pos (a b : Rat × Rat) (hab : a ≠ b) :
    0 < (b.1 - a.1) * (b.1 - a.1) + (b.2 - a.2) * (b.2 - a.2) := by
  rcases (show b.1 - a.1 ≠ 0 ∨ b.2 - a.2 ≠ 0 by
    by_contra hc
    push_neg at hc
    exact hab (Prod.ext (by linarith [hc.1]) (by linarith [hc.2])).symm) with hne | hne
  · have h1 : 0 < (b.1 - a.1) * (b.1 - a.1) := mul_self_pos.mpr hne
    nlinarith [mul_self_nonneg (b.2 - a.2)]
  · have h1 : 0 < (b.2 - a.2) * (b.2 - a.2) := mul_self_pos.mpr hne
    nlinarith [mul_self_nonneg (b.1 - a.1)]

/-- Closed form of the squared perpendicular distance for a
nondegenerate chord: the squared cross product over the squared chord
length. -/
theorem perpDistSq_eq (p a b : Rat × Rat) (hab : a ≠ b) :
    perpendicularDistanceSq p a b =
      ((p.1 - a.1) * (b.2 - a.2) - (p.2 - a.2) * (b.1 - a.1)) ^ 2 /
        ((b.1 - a.1) * (b.1 - a.1) + (b.2 - a.2) * (b.2 - a.2)) := by
  have hden := chordDen_pos a b hab
  simp only [perpendicularDistanceSq]
  rw [if_neg ?hd]
  case hd =>
    rintro ⟨h1, h2⟩
    exact hab (Prod.ext (by linarith) (by linarith)).symm
  field_simp
  ring

/-- The squared perpendicular distance is nonnegative. -/
theorem perpDistSq_nonneg (p a b : Rat × Rat) : 0 ≤ perpendicularDistanceSq p a b := by
  by_cases hab : a = b
  · simp only [perpendicularDistanceSq]
    rw [if_pos (by rw [hab]; exact ⟨by ring, by ring⟩)]
    positivity
  · rw [perpDistSq_eq p a b hab]
    exact div_nonneg (sq_nonneg _) (le_of_lt (chordDen_pos a b hab))

/-- On the chord line (zero cross product, distinct ends) the deviation
vanishes. -/
theorem perpDistSq_eq_zero_of_collinear (p a b : Rat × Rat) (hab : a ≠ b)
    (h : collinear3 a p b) : perpendicularDistanceSq p a b = 0 := by
  rw [perpDistSq_eq p a b hab]
  unfold collinear3 at h
  rw [show (p.1 - a.1) * (b.2 - a.2) - (p.2 - a.2) * (b.1 - a.1) = 0 by linarith]
  simp

/-- Off the chord line the deviation is strictly positive (for
coinciding chord ends every point is trivially collinear, so the
hypothesis forces distinct ends). -/
theorem perpDistSq_pos_of_not_collinear (p a b : Rat × Rat)
    (h : ¬ collinear3 a p b) : 0 < perpendicularDistanceSq p a b := by
  have hab : a ≠ b := by
    intro he
    exact h (by unfold collinear3; rw [he]; ring)
  rw [perpDistSq_eq p a b hab]
  apply div_pos ?_ (chordDen_pos a b hab)
  have hcross : (p.1 - a.1) * (b.2 - a.2) - (p.2 - a.2) * (b.1 - a.1) ≠ 0 := by
    intro hz
    exact h (by unfold collinear3; linarith)
  positivity

/-! ## The maximum-deviation scan -/

/-- The first component of the scan fold never decreases. -/
theorem scanFold_fst_ge_init (d : Nat → Rat) (l : List Nat) (acc : Rat × Nat) :
    acc.1 ≤ (l.foldl (fun acc i => if d i > acc.1 then (d i, i) else acc) acc).1 := by
  induction l generalizing acc with
  | nil => exact le_refl _
  | cons i rest ih =>
    simp only [List.foldl_cons]
    refine le_trans ?_ (ih _)
    split
    · rename_i hgt
      exact le_of_lt hgt
    · exact le_refl _

/-- The scan fold dominates every scanned deviation. -/
theorem scanFold_ge_elem (d : Nat → Rat) (l : List Nat) (acc : Rat × Nat) (i : Nat)
    (hi : i ∈ l) :
    d i ≤ (l.foldl (fun acc i => if d i > acc.1 then (d i, i) else acc) acc).1 := by
  induction l generalizing acc with
  | nil => simp at hi
  | cons j rest ih =>
    simp only [List.foldl_cons]
    rcases List.mem_cons.mp hi with h | h
    · refine le_trans ?_ (scanFold_fst_ge_init d rest _)
      rw [h]
      split
      · exact le_refl _
      · rename_i hle
        exact le_of_not_lt hle
    · exact ih _ h

/-- The scan fold either keeps its initial accumulator or lands on a
scanned index. -/
theorem scanFold_result_cases (d : Nat → Rat) (l : List Nat) (acc : Rat × Nat)
    (S : Nat → Prop) (hacc : acc = (0, 0) ∨ S acc.2) (hl : ∀ i ∈ l, S i) :
    (l.foldl (fun acc i => if d i > acc.1 then (d i, i) else acc) acc) = (0, 0) ∨
      S ((l.foldl (fun acc i => if d i > acc.1 then (d i, i) else acc) acc)).2 := by
  induction l generalizing acc with
  | nil => exact hacc
  | cons j rest ih =>
    simp only [List.foldl_cons]
    refine ih _ ?_ (fun i hi => hl i (List.mem_cons_of_mem j hi))
    split
    · exact Or.inr (hl j (List.mem_cons_self j rest))
    · exact hacc

/-- The scan as an explicit fold over the interior index range. -/
theorem scanMaxDeviation_eq (coordinates : List (Rat × Rat)) :
    scanMaxDeviation coordinates =
      (List.range' 1 (coordinates.length - 2)).foldl
        (fun acc i =>
          if perpendicularDistanceSq (coordinates.getD i (0, 0))
              (coordinates.headD (0, 0)) (coordinates.getLastD (0, 0)) > acc.1 then
            (perpendicularDistanceSq (coordinates.getD i (0, 0))
              (coordinates.headD (0, 0)) (coordinates.getLastD (0, 0)), i)
          else acc)
        (0, 0) := rfl

/-- Every scanned deviation is at most the scan result. -/
theorem scanMaxDeviation_ge (coordinates : List (Rat × Rat)) (i : Nat)
    (hi : i ∈ List.range' 1 (coordinates.length - 2)) :
    perpendicularDistanceSq (coordinates.getD i (0, 0)) (coordinates.headD (0, 0))
      (coordinates.getLastD (0, 0)) ≤ (scanMaxDeviation coordinates).1 := by
  rw [scanMaxDeviation_eq]
  exact scanFold_ge_elem
    (fun i => perpendicularDistanceSq (coordinates.getD i (0, 0))
      (coordinates.headD (0, 0)) (coordinates.getLastD (0, 0)))
    (List.range' 1 (coordinates.length - 2)) (0, 0) i hi

/-- A strictly positive scan result sits at an interior index. -/
theorem scanMaxDeviation_pos_index (coordinates : List (Rat × Rat))
    (hpos : 0 < (scanMaxDeviation coordinates).1) :
    1 ≤ (scanMaxDeviation coordinates).2 ∧
      (scanMaxDeviation coordinates).2 < coordinates.length - 1 := by
  have hcases := scanFold_result_cases
    (fun i => perpendicularDistanceSq (coordinates.getD i (0, 0))
      (coordinates.headD (0, 0)) (coordinates.getLastD (0, 0)))
    (List.range' 1 (coordinates.length - 2)) (0, 0)
    (fun i => 1 ≤ i ∧ i < coordinates.length - 1) (Or.inl rfl)
    (fun i hi => by
      have := List.mem_range'_1.mp hi
      omega)
  rw [← scanMaxDeviation_eq] at hcases
  rcases hcases with h | h
  · exfalso
    rw [h] at hpos
    simp at hpos
  · exact h

/-- A scan over vanishing deviations stays at the initial accumulator. -/
theorem scanFold_zero (d : Nat → Rat) (l : List Nat) (h : ∀ i ∈ l, d i = 0) :
    (l.foldl (fun acc i => if d i > acc.1 then (d i, i) else acc) (0, 0)) = (0, 0) := by
  induction l with
  | nil => rfl
  | cons j rest ih =>
    simp only [List.foldl_cons]
    rw [if_neg ?_]
    · exact ih (fun i hi => h i (List.mem_cons_of_mem j hi))
    · rw [h j (List.mem_cons_self j rest)]
      simp

/-- The scan result is zero when every interior deviation is zero. -/
theorem scanMaxDeviation_zero (coordinates : List (Rat × Rat))
    (h : ∀ i ∈ List.range' 1 (coordinates.length - 2),
      perpendicularDistanceSq (coordinates.getD i (0, 0)) (coordinates.headD (0, 0))
        (coordinates.getLastD (0, 0)) = 0) :
    scanMaxDeviation coordinates = (0, 0) := by
  rw [scanMaxDeviation_eq]
  exact scanFold_zero _ _ h

/-! ## List facts for the simplification recursion -/

/-- The optional head of a nonempty list is its defaulted head. -/
theorem head?_eq_headD {α : Type} (l : List α) (d : α) (h : l ≠ []) :
    l.head? = some (l.headD d) := by
  cases l with
  | nil => exact absurd rfl h
  | cons a t => simp

/-- The optional last element of a nonempty list is its defaulted last
element. -/
theorem getLast?_eq_getLastD {α : Type} (l : List α) (d : α) (h : l ≠ []) :
    l.getLast? = some (l.getLastD d) := by
  cases hg : l.getLast? with
  | none => exact absurd (List.getLast?_eq_none_iff.mp hg) h
  | some g =>
    rw [List.getLastD_eq_getLast?, hg]
    rfl

/-- Taking a positive prefix preserves the optional head. -/
theorem head?_take {α : Type} (n : Nat) (l : List α) (h : 0 < n) :
    (List.take n l).head? = l.head? := by
  cases l with
  | nil => simp
  | cons a t =>
    cases n with
    | zero => omega
    | succ m => simp

/-- Dropping the last element of a list of length at least two keeps the
head. -/
theorem dropLast_head? {α : Type} (l : List α) (h : 2 ≤ l.length) :
    l.dropLast.head? = l.head? := by
  cases l with
  | nil => simp at h
  | cons a t =>
    cases t with
    | nil => simp at h
    | cons b t2 => simp

/-- A nonempty suffix carries the optional last element of the whole
list. -/
theorem getLast?_drop_of_ne_nil {α : Type} (i : Nat) (l : List α)
    (h : List.drop i l ≠ []) : (List.drop i l).getLast? = l.getLast? := by
  conv_rhs => rw [← List.take_append_drop i l]
  rw [List.getLast?_append]
  cases hg : (List.drop i l).getLast? with
  | none => exact absurd (List.getLast?_eq_none_iff.mp hg) h
  | some g => rfl

/-- The head of an append with a nonempty left part. -/
theorem head?_append_left {α : Type} (x y : List α) (h : x ≠ []) :
    (x ++ y).head? = x.head? := by
  cases x with
  | nil => exact absurd rfl h
  | cons a t => simp

/-- Dropping the last element of a `take (i+1)` prefix is the `take i`
prefix. -/
theorem dropLast_take {α : Type} (i : Nat) (l : List α) (h : i + 1 ≤ l.length) :
    (List.take (i + 1) l).dropLast = List.take i l := by
  rw [List.dropLast_eq_take, List.length_take, List.take_take]
  congr 1
  omega

/-- Unfolding of the fueled simplification on a list of at least three
points. -/
theorem simplifyShapeF_succ (f : Nat) (coordinates : List (Rat × Rat)) (tolerance : Rat)
    (h3 : 3 ≤ coordinates.length) :
    simplifyShapeF (f + 1) coordinates tolerance =
      if tolerance < 0 ∨ (scanMaxDeviation coordinates).1 > tolerance ^ 2 then
        match simplifyShapeF f (coordinates.take ((scanMaxDeviation coordinates).2 + 1))
            tolerance,
          simplifyShapeF f (coordinates.drop (scanMaxDeviation coordinates).2) tolerance with
        | some left, some right => some (left.dropLast ++ right)
        | _, _ => none
      else some [coordinates.headD (0, 0), coordinates.getLastD (0, 0)] := by
  rw [show simplifyShapeF (f + 1) coordinates tolerance =
    if coordinates.length ≤ 2 then some coordinates
    else
      if tolerance < 0 ∨ (scanMaxDeviation coordinates).1 > tolerance ^ 2 then
        match simplifyShapeF f (coordinates.take ((scanMaxDeviation coordinates).2 + 1))
            tolerance,
          simplifyShapeF f (coordinates.drop (scanMaxDeviation coordinates).2) tolerance with
        | some left, some right => some (left.dropLast ++ right)
        | _, _ => none
      else some [coordinates.headD (0, 0), coordinates.getLastD (0, 0)] from rfl]
  rw [if_neg (by omega)]

/-- With nonnegative tolerance, fuel covering the length makes the
fueled simplification total, and the result keeps the endpoints, is
nonempty for nonempty input, and has at least two points for input of at
least two points. -/
theorem simplifyShapeF_total_of_nonneg (f : Nat) :
    ∀ (coordinates : List (Rat × Rat)) (tolerance : Rat), 0 ≤ tolerance →
    coordinates.length ≤ f + 2 →
    ∃ out, simplifyShapeF f coordinates tolerance = some out ∧
      out.head? = coordinates.head? ∧ out.getLast? = coordinates.getLast? ∧
      (coordinates ≠ [] → out ≠ []) ∧
      (2 ≤ coordinates.length → 2 ≤ out.length) := by
  induction f with
  | zero =>
    intro coordinates tolerance htol hlen
    refine ⟨coordinates, ?_, rfl, rfl, fun h => h, fun h => h⟩
    unfold simplifyShapeF
    rw [if_pos (by omega)]
  | succ f ih =>
    intro coordinates tolerance htol hlen
    by_cases h2 : coordinates.length ≤ 2
    · refine ⟨coordinates, ?_, rfl, rfl, fun h => h, fun h => h⟩
      unfold simplifyShapeF
      rw [if_pos h2]
    · have h3 : 3 ≤ coordinates.length := by omega
      rw [simplifyShapeF_succ f coordinates tolerance h3]
      by_cases hguard : tolerance < 0 ∨ (scanMaxDeviation coordinates).1 > tolerance ^ 2
      · have hpos : 0 < (scanMaxDeviation coordinates).1 := by
          rcases hguard with h | h
          · exact absurd h (not_lt.mpr htol)
          · calc (0 : Rat) ≤ tolerance ^ 2 := by positivity
              _ < _ := h
        obtain ⟨hi1, hi2⟩ := scanMaxDeviation_pos_index coordinates hpos
        obtain ⟨left, hleq, hlh, hll, hlne, hllen⟩ :=
          ih (coordinates.take ((scanMaxDeviation coordinates).2 + 1)) tolerance htol
            (by rw [List.length_take]; omega)
        obtain ⟨right, hreq, hrh, hrl, hrne, hrlen⟩ :=
          ih (coordinates.drop (scanMaxDeviation coordinates).2) tolerance htol
            (by rw [List.length_drop]; omega)
        rw [if_pos hguard, hleq, hreq]
        have hlw : 2 ≤ left.length := by
          refine hllen ?_
          rw [List.length_take]
          omega
        have hrw : 2 ≤ right.length := by
          refine hrlen ?_
          rw [List.length_drop]
          omega
        have hdlne : left.dropLast ≠ [] := by
          have : left.dropLast.length = left.length - 1 := List.length_dropLast left
          intro hc
          rw [hc] at this
          simp at this
          omega
        refine ⟨left.dropLast ++ right, rfl, ?_, ?_, ?_, ?_⟩
        · rw [head?_append_left _ _ hdlne, dropLast_head? left hlw, hlh,
            head?_take _ _ (by omega)]
        · rw [List.getLast?_append]
          cases hg : right.getLast? with
          | none =>
            exfalso
            have : right = [] := List.getLast?_eq_none_iff.mp hg
            rw [this] at hrw
            simp at hrw
          | some g =>
            have hdrop : (List.drop (scanMaxDeviation coordinates).2 coordinates).getLast? =
                coordinates.getLast? := by
              refine getLast?_drop_of_ne_nil _ _ ?_
              intro hc
              have := congrArg List.length hc
              rw [List.length_drop] at this
              simp at this
              omega
            rw [show ((some g).or left.dropLast.getLast?) = some g from rfl,
              ← hg, hrl, hdrop]
        · intro hne
          intro hc
          have := congrArg List.length hc
          rw [List.length_append] at this
          simp at this
          omega
        · intro hle
          rw [List.length_append, List.length_dropLast]
          omega
      · rw [if_neg hguard]
        have hne : coordinates ≠ [] := by
          intro hc
          rw [hc] at h3
          simp at h3
        refine ⟨[coordinates.headD (0, 0), coordinates.getLastD (0, 0)], rfl, ?_, ?_,
          by simp, by simp⟩
        · rw [head?_eq_headD coordinates (0, 0) hne]
          rfl
        · rw [getLast?_eq_getLastD coordinates (0, 0) hne]
          rfl

/-! ## C9: endpoints preserved by `simplifyShape` -/

/-- C9 (amended).  For every nonempty coordinate list and every
nonnegative tolerance the simplification terminates with a nonempty list
whose first and last elements are the first and last input coordinates.
(For a negative tolerance the recursion can fail to terminate; see the
counterexample.) -/
theorem C9_simplifyShape_endpoints (coordinates : List (Rat × Rat)) (tolerance : Rat)
    (hne : coordinates ≠ []) (htol : 0 ≤ tolerance) :
    ∃ out, simplifyShape coordinates tolerance = some out ∧ out ≠ [] ∧
      out.head? = coordinates.head? ∧ out.getLast? = coordinates.getLast? := by
  obtain ⟨out, heq, hh, hl, hne2, _⟩ := simplifyShapeF_total_of_nonneg
    coordinates.length coordinates tolerance htol (by omega)
  exact ⟨out, heq, hne2 hne, hh, hl⟩

/-- Witness for C9 on a concrete three-point bend with tolerance 1. -/
theorem C9_simplifyShape_endpoints_witness :
    ([((0 : Rat), (0 : Rat)), (1, 1), (2, 0)] : List (Rat × Rat)) ≠ [] ∧
    (0 : Rat) ≤ 1 ∧
    (∃ out, simplifyShape [((0 : Rat), (0 : Rat)), (1, 1), (2, 0)] 1 = some out ∧
      out ≠ [] ∧
      out.head? = ([((0 : Rat), (0 : Rat)), (1, 1), (2, 0)] : List (Rat × Rat)).head? ∧
      out.getLast? = ([((0 : Rat), (0 : Rat)), (1, 1), (2, 0)] : List (Rat × Rat)).getLast?) :=
  ⟨by decide, by decide,
    C9_simplifyShape_endpoints [((0 : Rat), (0 : Rat)), (1, 1), (2, 0)] 1
      (by decide) (by decide)⟩

unseal Rat.add Rat.mul Rat.inv Rat.sub in
/-- Counterexample to C9 as stated: with the (meaningless but quantified
over) tolerance `-1` on a degenerate collinear segment, the recursion
never returns — the fueled embedding yields `none` (with fuel equal to
the list length, which suffices for every nonnegative tolerance by
`simplifyShapeF_total_of_nonneg`; `simplifyShapeF_neg_tol_diverges`
shows no fuel suffices here). -/
theorem C9_simplifyShape_counterexample :
    simplifyShape [((0 : Rat), (0 : Rat)), (1, 0), (2, 0)] (-1) = none := by
  decide

unseal Rat.add Rat.mul Rat.inv Rat.sub in
/-- The interior deviations of the degenerate example vanish. -/
theorem scan_neg_tol_example :
    scanMaxDeviation [((0 : Rat), (0 : Rat)), (1, 0), (2, 0)] = (0, 0) := by
  decide

/-- On the degenerate collinear segment with tolerance `-1` the
recursion of `simplifyShape` recurses on the whole list again, so no
amount of fuel produces a result: the source function does not
terminate there. -/
theorem simplifyShapeF_neg_tol_diverges (f : Nat) :
    simplifyShapeF f [((0 : Rat), (0 : Rat)), (1, 0), (2, 0)] (-1) = none := by
  induction f with
  | zero => decide
  | succ f ih =>
    rw [simplifyShapeF_succ f _ _ (by decide), scan_neg_tol_example,
      if_pos (Or.inl (by norm_num))]
    have htake : (List.take ((((0 : Rat), (0 : Nat)).2) + 1)
        [((0 : Rat), (0 : Rat)), (1, 0), (2, 0)]) = [((0 : Rat), (0 : Rat))] := rfl
    have hdrop : (List.drop ((((0 : Rat), (0 : Nat)).2))
        [((0 : Rat), (0 : Rat)), (1, 0), (2, 0)]) =
        [((0 : Rat), (0 : Rat)), (1, 0), (2, 0)] := rfl
    rw [htake, hdrop, ih]
    cases simplifyShapeF f [((0 : Rat), (0 : Rat))] (-1) <;> rfl

/-! ## C8: simplification fidelity -/

/-- The defaulted head is the element at index 0. -/
theorem headD_eq_getD {α : Type} (l : List α) (d : α) : l.headD d = l.getD 0 d := by
  cases l <;> rfl

/-- The defaulted last element is the element at the last index. -/
theorem getLastD_eq_getD {α : Type} (l : List α) (d : α) (_h : l ≠ []) :
    l.getLastD d = l.getD (l.length - 1) d := by
  rw [List.getLastD_eq_getLast?, List.getLast?_eq_getElem?, List.getD_eq_getElem?_getD]

/-- Defaulted entries at distinct in-range indices of a duplicate-free
list differ. -/
theorem getD_ne_of_nodup {α : Type} (l : List α) (d : α) (hnod : l.Nodup)
    (i j : Nat) (hi : i < l.length) (hj : j < l.length) (hij : i ≠ j) :
    l.getD i d ≠ l.getD j d := by
  rw [List.getD_eq_getElem l d hi, List.getD_eq_getElem l d hj]
  intro he
  exact hij ((List.Nodup.getElem_inj_iff hnod).mp he)

/-- Defaulted in-range entries are members. -/
theorem getD_mem {α : Type} (l : List α) (d : α) (i : Nat) (hi : i < l.length) :
    l.getD i d ∈ l := by
  rw [List.getD_eq_getElem l d hi]
  exact List.getElem_mem hi

/-- With tolerance 0 and no three distinct collinear points, the fueled
simplification returns the input unchanged. -/
theorem simplifyShapeF_zero_tol_exact (f : Nat) :
    ∀ (coordinates : List (Rat × Rat)), coordinates.length ≤ f + 2 →
    coordinates.Nodup →
    (∀ p ∈ coordinates, ∀ q ∈ coordinates, ∀ r ∈ coordinates,
      p ≠ q → q ≠ r → p ≠ r → ¬ collinear3 p q r) →
    simplifyShapeF f coordinates 0 = some coordinates := by
  induction f with
  | zero =>
    intro coordinates hlen hnod hcol
    unfold simplifyShapeF
    rw [if_pos (by omega)]
  | succ f ih =>
    intro coordinates hlen hnod hcol
    by_cases h2 : coordinates.length ≤ 2
    · unfold simplifyShapeF
      rw [if_pos h2]
    · have h3 : 3 ≤ coordinates.length := by omega
      rw [simplifyShapeF_succ f coordinates 0 h3]
      have hne : coordinates ≠ [] := by
        intro hc
        rw [hc] at h3
        simp at h3
      have hd1 : 0 < perpendicularDistanceSq (coordinates.getD 1 (0, 0))
          (coordinates.headD (0, 0)) (coordinates.getLastD (0, 0)) := by
        rw [headD_eq_getD, getLastD_eq_getD coordinates (0, 0) hne]
        refine perpDistSq_pos_of_not_collinear _ _ _ ?_
        refine hcol _ (getD_mem _ _ 0 (by omega)) _ (getD_mem _ _ 1 (by omega))
          _ (getD_mem _ _ (coordinates.length - 1) (by omega)) ?_ ?_ ?_
        · exact getD_ne_of_nodup _ _ hnod 0 1 (by omega) (by omega) (by omega)
        · exact getD_ne_of_nodup _ _ hnod 1 (coordinates.length - 1) (by omega)
            (by omega) (by omega)
        · exact getD_ne_of_nodup _ _ hnod 0 (coordinates.length - 1) (by omega)
            (by omega) (by omega)
      have hscan : 0 < (scanMaxDeviation coordinates).1 :=
        lt_of_lt_of_le hd1 (scanMaxDeviation_ge coordinates 1
          (List.mem_range'_1.mpr (by omega)))
      obtain ⟨hi1, hi2⟩ := scanMaxDeviation_pos_index coordinates hscan
      rw [if_pos (Or.inr (by rw [show (0 : Rat) ^ 2 = 0 by norm_num]; exact hscan))]
      rw [ih (coordinates.take ((scanMaxDeviation coordinates).2 + 1))
          (by rw [List.length_take]; omega)
          (hnod.sublist (List.take_sublist _ _))
          (fun p hp q hq r hr => hcol p (List.take_subset _ _ hp)
            q (List.take_subset _ _ hq) r (List.take_subset _ _ hr)),
        ih (coordinates.drop ((scanMaxDeviation coordinates).2))
          (by rw [List.length_drop]; omega)
          (hnod.sublist (List.drop_sublist _ _))
          (fun p hp q hq r hr => hcol p (List.drop_subset _ _ hp)
            q (List.drop_subset _ _ hq) r (List.drop_subset _ _ hr))]
      show some ((coordinates.take ((scanMaxDeviation coordinates).2 + 1)).dropLast ++
        coordinates.drop ((scanMaxDeviation coordinates).2)) = some coordinates
      rw [dropLast_take _ _ (by omega), List.take_append_drop]

/-- C8 (amended).  Three properties of `simplifyShape`: lists of at most
two points return unchanged; a list whose every point has zero deviation
from the first-to-last chord collapses to exactly the two endpoints
under any positive tolerance; and with tolerance 0 a duplicate-free list
with no three distinct collinear points returns unchanged (a general
non-collinear list may still lose interior points that are collinear
with the chord of a recursive segment; see the counterexample). -/
theorem C8_simplifyShape_fidelity :
    (∀ (coordinates : List (Rat × Rat)) (tolerance : Rat), coordinates.length ≤ 2 →
      simplifyShape coordinates tolerance = some coordinates) ∧
    (∀ (coordinates : List (Rat × Rat)) (tolerance : Rat), 0 < tolerance →
      2 ≤ coordinates.length →
      (∀ p ∈ coordinates, perpendicularDistanceSq p (coordinates.headD (0, 0))
        (coordinates.getLastD (0, 0)) = 0) →
      simplifyShape coordinates tolerance =
        some [coordinates.headD (0, 0), coordinates.getLastD (0, 0)]) ∧
    (∀ (coordinates : List (Rat × Rat)), coordinates.Nodup →
      (∀ p ∈ coordinates, ∀ q ∈ coordinates, ∀ r ∈ coordinates,
        p ≠ q → q ≠ r → p ≠ r → ¬ collinear3 p q r) →
      simplifyShape coordinates 0 = some coordinates) := by
  refine ⟨?_, ?_, ?_⟩
  · intro coordinates tolerance h2
    unfold simplifyShape simplifyShapeF
    rw [if_pos h2]
  · intro coordinates tolerance htol h2 hflat
    by_cases h3 : 3 ≤ coordinates.length
    · unfold simplifyShape
      rw [show coordinates.length = (coordinates.length - 1) + 1 by omega,
        simplifyShapeF_succ _ _ _ h3]
      rw [scanMaxDeviation_zero coordinates (fun i hi => by
        have hr := List.mem_range'_1.mp hi
        exact hflat _ (getD_mem _ _ i (by omega)))]
      rw [if_neg ?hc]
      case hc =>
        push_neg
        exact ⟨le_of_lt htol, show (0 : Rat) ≤ tolerance ^ 2 by positivity⟩
    · have hl2 : coordinates.length = 2 := by omega
      obtain ⟨x, y, hxy⟩ := List.length_eq_two.mp hl2
      subst hxy
      unfold simplifyShape simplifyShapeF
      rw [if_pos (by simp)]
      rfl
  · intro coordinates hnod hcol
    unfold simplifyShape
    exact simplifyShapeF_zero_tol_exact coordinates.length coordinates (by omega)
      hnod hcol

unseal Rat.add Rat.mul Rat.inv Rat.sub in
/-- Witness for C8: the three conjuncts applied to concrete lists — a
two-point list with tolerance 5, a collinear three-point list with
tolerance 1, and a three-point bend with tolerance 0. -/
theorem C8_simplifyShape_fidelity_witness :
    simplifyShape [((0 : Rat), (0 : Rat)), (1, 1)] 5 =
      some [((0 : Rat), (0 : Rat)), (1, 1)] ∧
    simplifyShape [((0 : Rat), (0 : Rat)), (1, 1), (2, 2)] 1 =
      some [((0 : Rat), (0 : Rat)), (2, 2)] ∧
    simplifyShape [((0 : Rat), (0 : Rat)), (1, 1), (2, 0)] 0 =
      some [((0 : Rat), (0 : Rat)), (1, 1), (2, 0)] := by
  refine ⟨C8_simplifyShape_fidelity.1 _ 5 (by decide), ?_, ?_⟩
  · have h := C8_simplifyShape_fidelity.2.1 [((0 : Rat), (0 : Rat)), (1, 1), (2, 2)] 1
      (by decide) (by decide) (by decide)
    simpa using h
  · exact C8_simplifyShape_fidelity.2.2 [((0 : Rat), (0 : Rat)), (1, 1), (2, 0)]
      (by decide) (by decide)

unseal Rat.add Rat.mul Rat.inv Rat.sub in
/-- Counterexample to C8 as stated: the non-collinear four-point list
below, simplified with tolerance 0, loses its second point (which lies
on the chord of the left recursive segment), so the point count drops
from 4 to 3. -/
theorem C8_simplifyShape_counterexample :
    simplifyShape [((0 : Rat), (0 : Rat)), (1, 0), (2, 0), (0, 1)] 0 =
      some [((0 : Rat), (0 : Rat)), (2, 0), (0, 1)] ∧
    ([((0 : Rat), (0 : Rat)), (2, 0), (0, 1)] : List (Rat × Rat)).length ≠
      ([((0 : Rat), (0 : Rat)), (1, 0), (2, 0), (0, 1)] : List (Rat × Rat)).length := by
  decide

/-! ## C1: derivation of route direction options -/

/-- C1 (amended).  Route direction options are the generic labels of the
inferred axis, and their number is decided jointly by the distinct
`direction_id` values and the distinct non-empty headsigns of the route
trips: the two-label pair when either count is at least 2, the single
generic label otherwise (so the raw direction flag does take part, and
headsign text itself never appears in the options).  Every route emitted
by `processRoutes` comes from `processOneRoute` this way. -/
theorem C1_direction_options (axisOf : List (Rat × Rat) → DirectionAxis) :
    (∀ (stopIndex : MapL GTFSStop) (shapeIndex : MapL RouteShape)
      (stopTimeIndex : MapL (List GTFSStopTime)) (trips : List GTFSTrip)
      (route : GTFSRoute) (pr : ProcessedRoute),
      processOneRoute axisOf stopIndex shapeIndex stopTimeIndex trips route =
        some pr →
      pr.directionOptions =
        if 2 ≤ (jsSetOf ((trips.filter (fun t => t.route_id == route.route_id)).map
              (fun t => t.direction_id))).length ∨
           2 ≤ (jsSetOf (((trips.filter (fun t => t.route_id == route.route_id)).map
              (fun t => t.trip_headsign)).filter (fun h => h ≠ ""))).length then
          axisPair pr.directionAxis
        else [axisSingle pr.directionAxis]) ∧
    (∀ (routes : List GTFSRoute) (trips : List GTFSTrip) (shapes : List GTFSShape)
      (stops : List GTFSStop) (stopTimes : List GTFSStopTime) (pr : ProcessedRoute),
      pr ∈ processRoutes axisOf routes trips shapes stops stopTimes →
      ∃ route ∈ routes,
        processOneRoute axisOf (buildStopIndex stops) (buildShapeIndex shapes)
          (buildStopTimeIndex stopTimes) trips route = some pr) := by
  constructor
  · intro stopIndex shapeIndex stopTimeIndex trips route pr h
    simp only [processOneRoute] at h
    by_cases hz : (trips.filter (fun t => t.route_id == route.route_id)).length = 0
    · rw [if_pos hz] at h
      exact absurd h (by simp)
    · rw [if_neg hz] at h
      injection h with h2
      subst h2
      rfl
  · intro routes trips shapes stops stopTimes pr hmem
    simp only [processRoutes, List.mem_filterMap] at hmem
    obtain ⟨route, hroute, heq⟩ := hmem
    exact ⟨route, hroute, heq⟩

/-- Witness for C1: the per-route conclusion instantiated on the
concrete two-trip route (empty headsigns, direction ids 0 and 1). -/
theorem C1_direction_options_witness :
    prC1.directionOptions =
      if 2 ≤ (jsSetOf (([exC1tripA, exC1tripB].filter
            (fun t => t.route_id == exC1route.route_id)).map
            (fun t => t.direction_id))).length ∨
         2 ≤ (jsSetOf ((([exC1tripA, exC1tripB].filter
            (fun t => t.route_id == exC1route.route_id)).map
            (fun t => t.trip_headsign)).filter (fun h => h ≠ ""))).length then
        axisPair prC1.directionAxis
      else [axisSingle prC1.directionAxis] :=
  (C1_direction_options constAxisEW).1 [] [] [] [exC1tripA, exC1tripB] exC1route prC1
    (by decide)

/-- Counterexample to C1 as stated: both trips of the example route have
empty headsigns, yet `processRoutes` emits both generic direction labels
(because the two distinct `direction_id` values are consulted), not the
single generic label the claim promises. -/
theorem C1_direction_options_counterexample :
    (∀ t ∈ [exC1tripA, exC1tripB], t.trip_headsign = r"") ∧
    processRoutes constAxisEW [exC1route] [exC1tripA, exC1tripB] [] [] [] = [prC1] ∧
    prC1.directionOptions ≠ [axisSingle prC1.directionAxis] := by
  decide

/-! ## Map and set lemmas for the route merger -/

theorem getM_mapReplace_self {α : Type} (k : String) (v : α) (m : MapL α) :
    getM (m.map (fun e => if e.1 == k then (k, v) else e)) k =
      if m.any (fun e => e.1 == k) then some v else none := by
  unfold getM
  induction m with
  | nil => rfl
  | cons x rest ih =>
    simp only [List.map_cons, List.any_cons]
    by_cases hxk : x.1 = k
    · rw [show (if x.1 == k then (k, v) else x) = (k, v) from if_pos (by simp [hxk])]
      rw [@List.find?_cons_of_pos _ (fun e => e.1 == k) (k, v) _ (by simp)]
      rw [if_pos (by simp [hxk])]
      rfl
    · rw [show (if x.1 == k then (k, v) else x) = x from if_neg (by simp [hxk])]
      rw [@List.find?_cons_of_neg _ (fun e => e.1 == k) x _ (by simp [hxk])]
      have hb : (x.1 == k) = false := by simp [hxk]
      simp only [hb, Bool.false_or]
      exact ih

theorem getM_mapReplace_ne {α : Type} (k : String) (v : α) (k2 : String) (h : k2 ≠ k)
    (m : MapL α) :
    getM (m.map (fun e => if e.1 == k then (k, v) else e)) k2 = getM m k2 := by
  unfold getM
  induction m with
  | nil => rfl
  | cons x rest ih =>
    simp only [List.map_cons]
    have hk2 : ¬ (k = k2) := fun hc => h hc.symm
    by_cases hxk : x.1 = k
    · rw [show (if x.1 == k then (k, v) else x) = (k, v) from if_pos (by simp [hxk])]
      rw [@List.find?_cons_of_neg _ (fun e => e.1 == k2) (k, v) _ (by simp [hk2])]
      rw [@List.find?_cons_of_neg _ (fun e => e.1 == k2) x rest (by simp [hxk, hk2])]
      exact ih
    · rw [show (if x.1 == k then (k, v) else x) = x from if_neg (by simp [hxk])]
      by_cases h2 : x.1 = k2
      · rw [@List.find?_cons_of_pos _ (fun e => e.1 == k2) x _ (by simp [h2])]
        rw [@List.find?_cons_of_pos _ (fun e => e.1 == k2) x rest (by simp [h2])]
      · rw [@List.find?_cons_of_neg _ (fun e => e.1 == k2) x _ (by simp [h2])]
        rw [@List.find?_cons_of_neg _ (fun e => e.1 == k2) x rest (by simp [h2])]
        exact ih

theorem getM_setM_self {α : Type} (m : MapL α) (k : String) (v : α) :
    getM (setM m k v) k = some v := by
  unfold setM
  split
  · rename_i hany
    rw [getM_mapReplace_self, if_pos hany]
  · rename_i hany
    unfold getM
    rw [List.find?_append]
    have hnone : m.find? (fun e => e.1 == k) = none := by
      rw [List.find?_eq_none]
      intro e he hek
      exact hany (List.any_eq_true.mpr ⟨e, he, hek⟩)
    rw [hnone]
    simp

theorem getM_setM_ne {α : Type} (m : MapL α) (k : String) (v : α) (k2 : String)
    (h : k2 ≠ k) : getM (setM m k v) k2 = getM m k2 := by
  unfold setM
  split
  · exact getM_mapReplace_ne k v k2 h m
  · unfold getM
    rw [List.find?_append]
    have hone : List.find? (fun e => e.1 == k2) [(k, v)] = none := by
      have hk2 : ¬ (k = k2) := fun hc => h hc.symm
      simp [hk2]
    rw [hone]
    simp

theorem getM_delM_self {α : Type} (m : MapL α) (k : String) :
    getM (delM m k) k = none := by
  unfold getM delM
  have hfind : List.find? (fun e => e.1 == k) (List.filter (fun e => e.1 != k) m) = none := by
    rw [List.find?_eq_none]
    intro e he
    have := List.of_mem_filter he
    simpa using this
  rw [hfind]
  rfl

theorem getM_delM_ne {α : Type} (m : MapL α) (k k2 : String) (h : k2 ≠ k) :
    getM (delM m k) k2 = getM m k2 := by
  unfold getM delM
  induction m with
  | nil => rfl
  | cons x rest ih =>
    simp only [List.filter_cons]
    by_cases hxk : x.1 = k
    · rw [if_neg (by simp [hxk] : ¬ ((x.1 != k) = true))]
      rw [@List.find?_cons_of_neg _ (fun e => e.1 == k2) x rest
        (by simp [hxk]; exact fun hc => h hc.symm)]
      exact ih
    · rw [if_pos (by simp [hxk] : (x.1 != k) = true)]
      by_cases h2 : x.1 = k2
      · rw [@List.find?_cons_of_pos _ (fun e => e.1 == k2) x
          (List.filter (fun e => e.1 != k) rest) (by simp [h2])]
        rw [@List.find?_cons_of_pos _ (fun e => e.1 == k2) x rest (by simp [h2])]
      · rw [@List.find?_cons_of_neg _ (fun e => e.1 == k2) x
          (List.filter (fun e => e.1 != k) rest) (by simp [h2])]
        rw [@List.find?_cons_of_neg _ (fun e => e.1 == k2) x rest (by simp [h2])]
        exact ih


/-- Membership is preserved by `addSet`. -/
theorem addSet_mem_of_mem (s : List String) (k k2 : String) (h : k ∈ s) :
    k ∈ addSet s k2 := by
  unfold addSet
  split
  · exact h
  · exact List.mem_append_left _ h

/-- The added key is a member. -/
theorem addSet_mem_self (s : List String) (k : String) : k ∈ addSet s k := by
  unfold addSet
  split
  · assumption
  · exact List.mem_append_right _ (List.mem_singleton.mpr rfl)


/-! ## C5: helper lemmas for the merge loop -/

/-- A group is skipped when too few ids resolve or validation fails. -/
theorem applyOneGroup_skip (st : MergeState) (g : RouteMergeGroup)
    (h : (g.routeIds.filterMap (getM st.index)).length < 2 ∨
      validateMergeGroup g.routeIds st.sched = false) :
    applyOneGroup st g = st := by
  unfold applyOneGroup
  by_cases h1 : (g.routeIds.filterMap (getM st.index)).length < 2
  · rw [if_pos h1]
  · rw [if_neg h1]
    rcases h with h | h
    · exact absurd h h1
    · rw [if_pos (by simp [h])]

/-- Length of a `filterMap` as a filter by definedness. -/
theorem length_filterMap_eq {α β : Type} (f : α → Option β) (l : List α) :
    (l.filterMap f).length = (l.filter (fun a => (f a).isSome)).length := by
  induction l with
  | nil => rfl
  | cons x t ih =>
    cases hfx : f x <;>
      simp [List.filterMap_cons, List.filter_cons, hfx, ih]

/-- Filtering by a pointwise weaker predicate keeps at least as many
elements. -/
theorem length_filter_mono {α : Type} (p q : α → Bool) (l : List α)
    (h : ∀ a ∈ l, p a = true → q a = true) :
    (l.filter p).length ≤ (l.filter q).length := by
  induction l with
  | nil => exact Nat.le_refl 0
  | cons x t ih =>
    have iht := ih (fun a ha => h a (List.mem_cons_of_mem _ ha))
    by_cases hp : p x = true
    · rw [List.filter_cons, if_pos hp, List.filter_cons,
        if_pos (h x (List.mem_cons_self x t) hp)]
      simpa using iht
    · rw [List.filter_cons, if_neg hp]
      by_cases hq : q x = true
      · rw [List.filter_cons, if_pos hq]
        exact Nat.le_trans iht (by simp)
      · rw [List.filter_cons, if_neg hq]
        exact iht

/-- A duplicate-free list whose elements all equal one value has at most
one element. -/
theorem length_le_one_of_nodup_all_eq {α : Type} (l : List α) (c : α)
    (hnd : l.Nodup) (h : ∀ a ∈ l, a = c) : l.length ≤ 1 := by
  match l with
  | [] => simp
  | [a] => simp
  | a :: b :: t =>
    exfalso
    have ha := h a (by simp)
    have hb := h b (by simp)
    have hne : a ≠ b := by
      have hcons := List.nodup_cons.mp hnd
      exact fun he => hcons.1 (he ▸ List.mem_cons_self b t)
    exact hne (ha.trans hb.symm)

/-- Folding a function that fixes the accumulator on every element. -/
theorem foldl_id_of_all_skip {α β : Type} (f : β → α → β) (b : β) (l : List α)
    (h : ∀ a ∈ l, f b a = b) : l.foldl f b = b := by
  induction l with
  | nil => rfl
  | cons x t ih =>
    rw [List.foldl_cons, h x (by simp)]
    exact ih (fun a ha => h a (by simp [ha]))

/-- Folding `setM` over routes without the key leaves the key alone. -/
theorem getM_foldl_setM_nomatch (l : List ProcessedRoute) :
    ∀ (m : MapL ProcessedRoute) (k : String), (∀ r ∈ l, r.routeId ≠ k) →
      getM (l.foldl (fun m r => setM m r.routeId r) m) k = getM m k := by
  induction l with
  | nil => intro m k _; rfl
  | cons x t ih =>
    intro m k h
    rw [List.foldl_cons, ih _ k (fun r hr => h r (by simp [hr]))]
    exact getM_setM_ne m x.routeId x k (fun he => h x (by simp) he.symm)

/-- The built index resolves a key exactly when some route carries it. -/
theorem isSome_getM_foldl_setM (l : List ProcessedRoute) :
    ∀ (m : MapL ProcessedRoute) (k : String),
      ((getM (l.foldl (fun m r => setM m r.routeId r) m) k).isSome = true ↔
        k ∈ l.map (fun r => r.routeId) ∨ (getM m k).isSome = true) := by
  induction l with
  | nil => intro m k; simp
  | cons x t ih =>
    intro m k
    rw [List.foldl_cons, ih]
    by_cases hk : k = x.routeId
    · subst hk
      rw [getM_setM_self]
      simp
    · rw [getM_setM_ne m x.routeId x k hk]
      simp only [List.map_cons, List.mem_cons]
      constructor
      · rintro (h | h)
        · exact Or.inl (Or.inr h)
        · exact Or.inr h
      · rintro ((h | h) | h)
        · exact absurd h hk
        · exact Or.inl h
        · exact Or.inr h

/-- Every original route id resolves in the built index to a route
carrying that id. -/
theorem IdxInv_foldl_setM (l : List ProcessedRoute) :
    ∀ (m : MapL ProcessedRoute) (k : String), k ∈ l.map (fun r => r.routeId) →
      ∃ v, getM (l.foldl (fun m r => setM m r.routeId r) m) k = some v ∧
        v.routeId = k := by
  induction l with
  | nil => intro m k h; simp at h
  | cons x t ih =>
    intro m k h
    rw [List.foldl_cons]
    by_cases hkt : k ∈ t.map (fun r => r.routeId)
    · exact ih _ k hkt
    · have hkx : k = x.routeId := by
        rw [List.map_cons] at h
        rcases List.mem_cons.mp h with h1 | h1
        · exact h1
        · exact absurd h1 hkt
      subst hkx
      refine ⟨x, ?_, rfl⟩
      rw [getM_foldl_setM_nomatch t _ _ ?_, getM_setM_self]
      intro r hr he
      exact hkt (he ▸ List.mem_map.mpr ⟨r, hr, rfl⟩)

/-- The index invariant at the initial state. -/
theorem IdxInv_buildRouteIndexP (routes : List ProcessedRoute) :
    IdxInv (routes.map (fun r => r.routeId)) (buildRouteIndexP routes) := by
  intro k hk
  exact IdxInv_foldl_setM routes [] k hk

/-- A route whose id is carried by no other distinct entry is what the
built index returns for its id. -/
theorem getM_foldl_setM_self_of_unique (l : List ProcessedRoute) :
    ∀ (m : MapL ProcessedRoute) (r : ProcessedRoute), r ∈ l →
      (∀ a ∈ l, a.routeId = r.routeId → a = r) →
      getM (l.foldl (fun m r => setM m r.routeId r) m) r.routeId = some r := by
  induction l with
  | nil => intro m r hr _; simp at hr
  | cons x t ih =>
    intro m r hr huniq
    rw [List.foldl_cons]
    by_cases hrt : r ∈ t
    · exact ih _ r hrt (fun a ha hid => huniq a (by simp [ha]) hid)
    · have hx : x = r := by
        rcases List.mem_cons.mp hr with h1 | h1
        · exact h1.symm
        · exact absurd h1 hrt
      subst hx
      rw [getM_foldl_setM_nomatch t _ _ ?_, getM_setM_self]
      intro a ha he
      exact hrt ((huniq a (by simp [ha]) he) ▸ ha)


/-- Successful validation means every member bucket is nonempty and all
member buckets carry the head member's unique stop ids. -/
theorem validate_true_elim (ids : List String) (sched : MapL (List ProcessedTrip))
    (h2 : 2 ≤ ids.length) (hval : validateMergeGroup ids sched = true) :
    (∀ id ∈ ids, (getM sched id).getD [] ≠ []) ∧
    (∀ id ∈ ids, getUniqueStopIds ((getM sched id).getD []) =
      getUniqueStopIds ((getM sched (ids.headD "")).getD [])) := by
  obtain ⟨h0, t, rfl⟩ : ∃ h0 t, ids = h0 :: t := by
    cases ids with
    | nil => simp at h2
    | cons a t => exact ⟨a, t, rfl⟩
  simp only [validateMergeGroup] at hval
  rw [if_neg (by simp at h2 ⊢; omega)] at hval
  by_cases hany : ((h0 :: t).map (fun id => (getM sched id).getD [])).any
      (fun trips => trips.length == 0) = true
  · rw [if_pos hany] at hval
    exact absurd hval (by decide)
  · rw [if_neg hany] at hval
    have hne : ∀ id ∈ h0 :: t, (getM sched id).getD [] ≠ [] := by
      intro id hid he
      refine hany (List.any_eq_true.mpr ⟨(getM sched id).getD [], ?_, ?_⟩)
      · exact List.mem_map.mpr ⟨id, hid, rfl⟩
      · rw [he]; rfl
    refine ⟨hne, ?_⟩
    intro id hid
    rcases List.mem_cons.mp hid with h1 | h1
    · rw [h1, List.headD_cons]
    · have hmem : (getM sched id).getD [] ∈
          (((h0 :: t).map (fun id => (getM sched id).getD [])).tail) := by
        rw [List.map_cons, List.tail_cons]
        exact List.mem_map.mpr ⟨id, h1, rfl⟩
      have := List.all_eq_true.mp hval _ hmem
      have hh : ((h0 :: t).map (fun id => (getM sched id).getD [])).headD [] =
          (getM sched h0).getD [] := by rw [List.map_cons, List.headD_cons]
      rw [hh] at this
      have := (haveIdenticalStops_iff _ _).mp this
      rw [List.headD_cons]
      exact this.symm

/-- Validation succeeds when every member bucket is nonempty and all
member buckets carry the head member's unique stop ids. -/
theorem validate_true_intro (ids : List String) (sched : MapL (List ProcessedTrip))
    (hne : ∀ id ∈ ids, (getM sched id).getD [] ≠ [])
    (hsets : ∀ id ∈ ids, getUniqueStopIds ((getM sched id).getD []) =
      getUniqueStopIds ((getM sched (ids.headD "")).getD [])) :
    validateMergeGroup ids sched = true := by
  simp only [validateMergeGroup]
  by_cases h2 : ids.length < 2
  · rw [if_pos h2]
  · rw [if_neg h2]
    obtain ⟨h0, t, rfl⟩ : ∃ h0 t, ids = h0 :: t := by
      cases ids with
      | nil => simp at h2
      | cons a t => exact ⟨a, t, rfl⟩
    have hany : ¬ ((h0 :: t).map (fun id => (getM sched id).getD [])).any
        (fun trips => trips.length == 0) = true := by
      intro hc
      obtain ⟨trips, htm, htl⟩ := List.any_eq_true.mp hc
      obtain ⟨id, hid, rfl⟩ := List.mem_map.mp htm
      exact hne id hid (List.length_eq_zero.mp (by simpa using htl))
    rw [if_neg hany]
    refine List.all_eq_true.mpr ?_
    intro trips htm
    rw [List.map_cons, List.tail_cons] at htm
    obtain ⟨id, hid, rfl⟩ := List.mem_map.mp htm
    have hh : ((h0 :: t).map (fun id => (getM sched id).getD [])).headD [] =
        (getM sched h0).getD [] := by rw [List.map_cons, List.headD_cons]
    rw [hh]
    refine (haveIdenticalStops_iff _ _).mpr ?_
    have h1 := hsets id (List.mem_cons_of_mem _ hid)
    have h0s := hsets h0 (List.mem_cons_self _ _)
    rw [List.headD_cons] at h1 h0s
    rw [h1]

/-- `RelS` is reflexive. -/
theorem RelS_refl (s : MapL (List ProcessedTrip)) : RelS s s := by
  intro k
  exact ⟨fun h => h, fun h => ⟨rfl, h⟩⟩

/-- `RelS` is transitive. -/
theorem RelS_trans (s1 s2 s3 : MapL (List ProcessedTrip))
    (h12 : RelS s1 s2) (h23 : RelS s2 s3) : RelS s1 s3 := by
  intro k
  obtain ⟨e12, n12⟩ := h12 k
  obtain ⟨e23, n23⟩ := h23 k
  refine ⟨fun h => e23 (e12 h), fun h => ?_⟩
  obtain ⟨hs23, hne2⟩ := n23 h
  obtain ⟨hs12, hne1⟩ := n12 hne2
  exact ⟨hs23.trans hs12, hne1⟩

/-- Failed validation cannot be repaired by later merge steps. -/
theorem validate_false_mono (ids : List String) (s s2 : MapL (List ProcessedTrip))
    (h2 : 2 ≤ ids.length) (hrel : RelS s s2)
    (hval : validateMergeGroup ids s = false) :
    validateMergeGroup ids s2 = false := by
  by_cases hv2 : validateMergeGroup ids s2 = true
  · exfalso
    obtain ⟨hne2, hsets2⟩ := validate_true_elim ids s2 h2 hv2
    have hhead : ids.headD "" ∈ ids := by
      cases ids with
      | nil => simp at h2
      | cons a t => exact List.mem_cons_self _ _
    have hne1 : ∀ id ∈ ids, (getM s id).getD [] ≠ [] := by
      intro id hid he
      exact hne2 id hid ((hrel id).1 he)
    have hsame : ∀ id ∈ ids, getUniqueStopIds ((getM s2 id).getD []) =
        getUniqueStopIds ((getM s id).getD []) := by
      intro id hid
      exact ((hrel id).2 (hne2 id hid)).1
    have hv1 : validateMergeGroup ids s = true := by
      refine validate_true_intro ids s hne1 ?_
      intro id hid
      rw [← hsame id hid, ← hsame _ hhead]
      exact hsets2 id hid
    rw [hval] at hv1
    exact absurd hv1 (by decide)
  · exact Bool.not_eq_true _ ▸ (Bool.eq_false_iff.mpr (fun hc => hv2 hc))


/-- The map component of the trip-collection fold is the fold of its
deletions alone. -/
theorem mergeSchedules_fold_snd (p : String) :
    ∀ (ids : List String) (ts : List ProcessedTrip) (m : MapL (List ProcessedTrip)),
      (ids.foldl (mergeSchedulesStep p) (ts, m)).2 =
        ids.foldl (fun m id => if id ≠ p then delM m id else m) m := by
  intro ids
  induction ids with
  | nil => intro ts m; rfl
  | cons id tl ih =>
    intro ts m
    rw [List.foldl_cons, List.foldl_cons]
    have hstep : (mergeSchedulesStep p (ts, m) id).2 =
        if id ≠ p then delM m id else m := rfl
    calc (tl.foldl (mergeSchedulesStep p) (mergeSchedulesStep p (ts, m) id)).2
        = (tl.foldl (mergeSchedulesStep p)
            ((mergeSchedulesStep p (ts, m) id).1, (mergeSchedulesStep p (ts, m) id).2)).2 := rfl
      _ = tl.foldl (fun m id => if id ≠ p then delM m id else m)
            (mergeSchedulesStep p (ts, m) id).2 := ih _ _
      _ = tl.foldl (fun m id => if id ≠ p then delM m id else m)
            (if id ≠ p then delM m id else m) := by rw [hstep]

/-- Reading the deletion fold. -/
theorem getM_foldl_del (p : String) :
    ∀ (ids : List String) (m : MapL (List ProcessedTrip)) (k : String),
      getM (ids.foldl (fun m id => if id ≠ p then delM m id else m) m) k =
        if k ∈ ids ∧ k ≠ p then none else getM m k := by
  intro ids
  induction ids with
  | nil =>
    intro m k
    rw [List.foldl_nil, if_neg (by simp)]
  | cons id tl ih =>
    intro m k
    rw [List.foldl_cons, ih]
    have hbody : getM (if id ≠ p then delM m id else m) k =
        if k = id ∧ k ≠ p then none else getM m k := by
      by_cases hidp : id ≠ p
      · rw [if_pos hidp]
        by_cases hki : k = id
        · subst hki
          rw [getM_delM_self, if_pos ⟨rfl, hidp⟩]
        · rw [getM_delM_ne m id k hki, if_neg (fun hc => hki hc.1)]
      · rw [if_neg hidp]
        have hip : id = p := Decidable.not_not.mp hidp
        rw [if_neg ?_]
        rintro ⟨hc1, hc2⟩
        exact hc2 (hc1.trans hip)
    rw [hbody]
    by_cases hkp : k ≠ p
    · by_cases hkt : k ∈ tl
      · rw [if_pos ⟨hkt, hkp⟩, if_pos ⟨List.mem_cons_of_mem _ hkt, hkp⟩]
      · rw [if_neg (fun hc => hkt hc.1)]
        by_cases hki : k = id
        · rw [if_pos ⟨hki, hkp⟩,
            if_pos ⟨(by rw [hki]; exact List.mem_cons_self _ _ : k ∈ id :: tl), hkp⟩]
        · rw [if_neg (fun hc => hki hc.1), if_neg ?_]
          rintro ⟨hc1, _⟩
          rcases List.mem_cons.mp hc1 with h | h
          · exact hki h
          · exact hkt h
    · rw [if_neg (fun hc => hkp hc.2), if_neg (fun hc => hkp hc.2),
        if_neg (fun hc => hkp hc.2)]

/-- The collected trips of the fold, when no member id repeats and the
member buckets are still those of the original map. -/
theorem mergeSchedules_fold_fst (p : String) (sched : MapL (List ProcessedTrip)) :
    ∀ (ids : List String) (ts : List ProcessedTrip) (m : MapL (List ProcessedTrip)),
      ids.Nodup → (∀ id ∈ ids, getM m id = getM sched id) →
      (ids.foldl (mergeSchedulesStep p) (ts, m)).1 =
        ts ++ (ids.map (fun id => ((getM sched id).getD []).map
          (fun tr => { tr with routeId := p }))).flatten := by
  intro ids
  induction ids with
  | nil => intro ts m _ _; simp
  | cons id tl ih =>
    intro ts m hnd hagree
    rw [List.foldl_cons]
    have hstep : mergeSchedulesStep p (ts, m) id =
        (ts ++ ((getM sched id).getD []).map (fun tr => { tr with routeId := p }),
         if id ≠ p then delM m id else m) := by
      simp only [mergeSchedulesStep]
      rw [hagree id (List.mem_cons_self _ _)]
    rw [hstep]
    rw [ih _ _ (List.nodup_cons.mp hnd).2 ?_]
    · rw [List.map_cons, List.flatten_cons, List.append_assoc]
    · intro id2 hid2
      have hne : id2 ≠ id := fun he => (List.nodup_cons.mp hnd).1 (he ▸ hid2)
      by_cases hidp : id ≠ p
      · rw [if_pos hidp, getM_delM_ne m id id2 hne]
        exact hagree id2 (List.mem_cons_of_mem _ hid2)
      · rw [if_neg hidp]
        exact hagree id2 (List.mem_cons_of_mem _ hid2)

/-- Reading the merged schedules: the primary bucket collects every
member bucket reassigned, and every other member bucket is gone. -/
theorem getM_mergeSchedules (sched : MapL (List ProcessedTrip)) (ids : List String)
    (p : String) (hnd : ids.Nodup) :
    (getM (mergeSchedules sched ids p) p =
      some ((ids.map (fun id => ((getM sched id).getD []).map
        (fun tr => { tr with routeId := p }))).flatten)) ∧
    (∀ k, k ≠ p → getM (mergeSchedules sched ids p) k =
      if k ∈ ids then none else getM sched k) := by
  have h1 := mergeSchedules_fold_fst p sched ids [] sched hnd (fun _ _ => rfl)
  have h2 := mergeSchedules_fold_snd p ids [] sched
  constructor
  · simp only [mergeSchedules]
    rw [getM_setM_self, h1]
    simp
  · intro k hk
    simp only [mergeSchedules]
    rw [getM_setM_ne _ _ _ _ hk, h2, getM_foldl_del]
    by_cases hki : k ∈ ids
    · rw [if_pos ⟨hki, hk⟩, if_pos hki]
    · rw [if_neg (fun hc => hki hc.1), if_neg hki]

/-- Reassigning the route id of every trip leaves the stop ids alone. -/
theorem idsOf_reassign (trips : List ProcessedTrip) (p : String) :
    idsOf (trips.map (fun tr => { tr with routeId := p })) = idsOf trips := by
  unfold idsOf
  rw [List.map_map]
  rfl

/-- Stop ids of a flattened trip-list list. -/
theorem mem_idsOf_flatten (x : String) (L : List (List ProcessedTrip)) :
    x ∈ idsOf L.flatten ↔ ∃ l ∈ L, x ∈ idsOf l := by
  rw [mem_idsOf]
  constructor
  · rintro ⟨t, ht, hx⟩
    obtain ⟨l, hl, htl⟩ := List.mem_flatten.mp ht
    exact ⟨l, hl, (mem_idsOf x l).mpr ⟨t, htl, hx⟩⟩
  · rintro ⟨l, hl, hx⟩
    obtain ⟨t, htl, hxt⟩ := (mem_idsOf x l).mp hx
    exact ⟨t, List.mem_flatten.mpr ⟨l, hl, htl⟩, hxt⟩

/-- A validated merge evolves the schedules along `RelS`. -/
theorem RelS_mergeSchedules (sched : MapL (List ProcessedTrip)) (ids : List String)
    (p : String) (hnd : ids.Nodup) (hp : p ∈ ids) (h2 : 2 ≤ ids.length)
    (hval : validateMergeGroup ids sched = true) :
    RelS sched (mergeSchedules sched ids p) := by
  obtain ⟨hne, hsets⟩ := validate_true_elim ids sched h2 hval
  obtain ⟨hP, hK⟩ := getM_mergeSchedules sched ids p hnd
  intro k
  by_cases hkp : k = p
  · subst hkp
    rw [hP]
    simp only [Option.getD_some]
    constructor
    · intro h
      exact absurd h (hne k hp)
    · intro _
      refine ⟨?_, hne k hp⟩
      refine (getUniqueStopIds_eq_iff _ _).mpr ?_
      intro x
      rw [mem_idsOf_flatten]
      constructor
      · rintro ⟨l, hl, hx⟩
        obtain ⟨id, hid, rfl⟩ := List.mem_map.mp hl
        rw [idsOf_reassign] at hx
        have hmem : x ∈ getUniqueStopIds ((getM sched id).getD []) :=
          (mem_getUniqueStopIds _ _).mpr hx
        rw [hsets id hid, ← hsets k hp] at hmem
        exact (mem_getUniqueStopIds _ _).mp hmem
      · intro hx
        refine ⟨((getM sched k).getD []).map (fun tr => { tr with routeId := k }),
          List.mem_map.mpr ⟨k, hp, rfl⟩, ?_⟩
        rw [idsOf_reassign]
        exact hx
  · rw [hK k hkp]
    by_cases hki : k ∈ ids
    · rw [if_pos hki]
      exact ⟨fun _ => rfl, fun h => absurd rfl h⟩
    · rw [if_neg hki]
      exact ⟨fun h => h, fun h => ⟨rfl, h⟩⟩


/-- The removal fold keeps existing members. -/
theorem remove_fold_mono (p : String) :
    ∀ (ids : List String) (s : List String) (r : String), r ∈ s →
      r ∈ ids.foldl (fun s rid => if rid ≠ p then addSet s rid else s) s := by
  intro ids
  induction ids with
  | nil => intro s r h; exact h
  | cons id tl ih =>
    intro s r h
    rw [List.foldl_cons]
    refine ih _ r ?_
    by_cases hidp : id ≠ p
    · rw [if_pos hidp]
      exact addSet_mem_of_mem s r id h
    · rw [if_neg hidp]
      exact h

/-- The removal fold adds every non-primary member. -/
theorem remove_fold_covers (p : String) :
    ∀ (ids : List String) (s : List String) (r : String), r ∈ ids → r ≠ p →
      r ∈ ids.foldl (fun s rid => if rid ≠ p then addSet s rid else s) s := by
  intro ids
  induction ids with
  | nil => intro s r h _; simp at h
  | cons id tl ih =>
    intro s r h hrp
    rw [List.foldl_cons]
    rcases List.mem_cons.mp h with h1 | h1
    · subst h1
      refine remove_fold_mono p tl _ r ?_
      rw [if_pos hrp]
      exact addSet_mem_self _ r
    · exact ih _ r h1 hrp

/-- When the stated primary id belongs to the merged routes, the merged
route object carries it. -/
theorem mergeRouteObjects_routeId_of_found (gr : List ProcessedRoute) (name p : String)
    (v : ProcessedRoute) (hv : v ∈ gr) (hvp : v.routeId = p) :
    (mergeRouteObjects gr name p).routeId = p := by
  have hfront : (mergeRouteObjects gr name p).routeId =
      ((gr.find? (fun r => r.routeId == p)).getD (gr.headD defRoute)).routeId := rfl
  rw [hfront]
  have hsome : (gr.find? (fun r => r.routeId == p)).isSome = true :=
    List.find?_isSome.mpr ⟨v, hv, by simp [hvp]⟩
  obtain ⟨w, hw⟩ := Option.isSome_iff_exists.mp hsome
  rw [hw, Option.getD_some]
  have := List.find?_some hw
  simpa using this

/-- The three outcomes of one group step: skip for lack of resolvable
ids, skip on failed validation, or the merge itself. -/
theorem applyOneGroup_cases (st : MergeState) (g : RouteMergeGroup) :
    ((g.routeIds.filterMap (getM st.index)).length < 2 ∧ applyOneGroup st g = st) ∨
    (2 ≤ g.routeIds.length ∧ validateMergeGroup g.routeIds st.sched = false ∧
      applyOneGroup st g = st) ∨
    (2 ≤ g.routeIds.length ∧ validateMergeGroup g.routeIds st.sched = true ∧
      applyOneGroup st g =
        { index := setM st.index (effPrimary g)
            (mergeRouteObjects (g.routeIds.filterMap (getM st.index)) g.mergedName
              (effPrimary g))
          remove := g.routeIds.foldl
            (fun s rid => if rid ≠ effPrimary g then addSet s rid else s) st.remove
          sched := mergeSchedules st.sched g.routeIds (effPrimary g) }) := by
  by_cases h1 : (g.routeIds.filterMap (getM st.index)).length < 2
  · exact Or.inl ⟨h1, applyOneGroup_skip st g (Or.inl h1)⟩
  · have h2 : 2 ≤ g.routeIds.length := by
      have := List.length_filterMap_le (getM st.index) g.routeIds
      omega
    cases hval : validateMergeGroup g.routeIds st.sched with
    | false => exact Or.inr (Or.inl ⟨h2, rfl, applyOneGroup_skip st g (Or.inr hval)⟩)
    | true =>
      refine Or.inr (Or.inr ⟨h2, rfl, ?_⟩)
      unfold applyOneGroup
      rw [if_neg h1, if_neg (by simp [hval])]

/-- The group loop preserves the index invariant, evolves the schedules
along `RelS`, only grows the removal set, and leaves every processed
group in a state that makes a second pass skip it. -/
theorem mergeLoop_facts (R0 : List String) :
    ∀ (groups : List RouteMergeGroup) (st : MergeState),
      (∀ g ∈ groups, goodGroup g) → IdxInv R0 st.index →
      IdxInv R0 (groups.foldl applyOneGroup st).index ∧
      RelS st.sched (groups.foldl applyOneGroup st).sched ∧
      (∀ r ∈ st.remove, r ∈ (groups.foldl applyOneGroup st).remove) ∧
      (∀ g ∈ groups, GDone R0 g (groups.foldl applyOneGroup st)) := by
  intro groups
  induction groups with
  | nil =>
    intro st _ hidx
    exact ⟨hidx, RelS_refl _, fun r h => h, fun g hg => absurd hg (by simp)⟩
  | cons g gs ih =>
    intro st hgood hidx
    have hgoodg : goodGroup g := hgood g (List.mem_cons_self _ _)
    have hgoods : ∀ g2 ∈ gs, goodGroup g2 := fun g2 hg2 => hgood g2 (by simp [hg2])
    rw [List.foldl_cons]
    rcases applyOneGroup_cases st g with ⟨hlt, heq⟩ | ⟨h2, hval, heq⟩ | ⟨h2, hval, heq⟩
    · rw [heq]
      obtain ⟨hIF, hRel, hRem, hGD⟩ := ih st hgoods hidx
      refine ⟨hIF, hRel, hRem, ?_⟩
      intro g2 hg2
      rcases List.mem_cons.mp hg2 with h1 | h1
      · subst h1
        refine Or.inl ?_
        have step1 : (g2.routeIds.filter
            (fun k => decide (k ∈ R0 ∧ ¬ k ∈ (gs.foldl applyOneGroup st).remove))).length ≤
            (g2.routeIds.filter (fun k => (getM st.index k).isSome)).length := by
          refine length_filter_mono _ _ _ ?_
          intro a _ hp
          obtain ⟨v, hv, _⟩ := hidx a (of_decide_eq_true hp).1
          rw [hv]
          rfl
        have step2 : (g2.routeIds.filter (fun k => (getM st.index k).isSome)).length < 2 := by
          rw [← length_filterMap_eq]
          exact hlt
        omega
      · exact hGD g2 h1
    · rw [heq]
      obtain ⟨hIF, hRel, hRem, hGD⟩ := ih st hgoods hidx
      refine ⟨hIF, hRel, hRem, ?_⟩
      intro g2 hg2
      rcases List.mem_cons.mp hg2 with h1 | h1
      · subst h1
        exact Or.inr (Or.inl (validate_false_mono _ _ _ h2 hRel hval))
      · exact hGD g2 h1
    · have hp : effPrimary g ∈ g.routeIds := hgoodg.2 h2
      have hnd : g.routeIds.Nodup := hgoodg.1
      rw [heq]
      have hidx1 : IdxInv R0 (setM st.index (effPrimary g)
          (mergeRouteObjects (g.routeIds.filterMap (getM st.index)) g.mergedName
            (effPrimary g))) := by
        intro k hk
        by_cases hkp : k = effPrimary g
        · obtain ⟨v, hv, hvid⟩ := hidx k hk
          rw [hkp] at hv hvid ⊢
          refine ⟨_, getM_setM_self _ _ _, ?_⟩
          exact mergeRouteObjects_routeId_of_found _ _ _ v
            (List.mem_filterMap.mpr ⟨effPrimary g, hp, hv⟩) hvid
        · rw [getM_setM_ne _ _ _ _ hkp]
          exact hidx k hk
      obtain ⟨hIF, hRel, hRem, hGD⟩ := ih
        { index := setM st.index (effPrimary g)
            (mergeRouteObjects (g.routeIds.filterMap (getM st.index)) g.mergedName
              (effPrimary g))
          remove := g.routeIds.foldl
            (fun s rid => if rid ≠ effPrimary g then addSet s rid else s) st.remove
          sched := mergeSchedules st.sched g.routeIds (effPrimary g) } hgoods hidx1
      have hRel1 : RelS st.sched (mergeSchedules st.sched g.routeIds (effPrimary g)) :=
        RelS_mergeSchedules st.sched g.routeIds (effPrimary g) hnd hp h2 hval
      refine ⟨hIF, RelS_trans _ _ _ hRel1 hRel, ?_, ?_⟩
      · intro r hr
        exact hRem r (remove_fold_mono _ _ _ r hr)
      · intro g2 hg2
        rcases List.mem_cons.mp hg2 with h1 | h1
        · subst h1
          refine Or.inr (Or.inr ?_)
          intro rid hrid hrp
          exact hRem rid (remove_fold_covers (effPrimary g2) g2.routeIds st.remove rid hrid hrp)
        · exact hGD g2 h1


/-- Each surviving output route is the index entry of its id. -/
theorem mem_R1_getM (routes : List ProcessedRoute) (stF : MergeState)
    (hidx : IdxInv (routes.map (fun r => r.routeId)) stF.index) :
    ∀ r2 ∈ (routes.filter (fun r => ¬ r.routeId ∈ stF.remove)).map
        (fun r => (getM stF.index r.routeId).getD r),
      getM stF.index r2.routeId = some r2 ∧
        r2.routeId ∈ routes.map (fun r => r.routeId) ∧ ¬ r2.routeId ∈ stF.remove := by
  intro r2 hr2
  obtain ⟨r, hrf, hEq⟩ := List.mem_map.mp hr2
  have hrm := List.mem_filter.mp hrf
  obtain ⟨v, hv, hvid⟩ := hidx r.routeId (List.mem_map.mpr ⟨r, hrm.1, rfl⟩)
  have hr2v : r2 = v := by rw [← hEq, hv]; rfl
  subst hr2v
  rw [hvid]
  exact ⟨hv, List.mem_map.mpr ⟨r, hrm.1, rfl⟩, of_decide_eq_true hrm.2⟩

/-- Ids of the output routes array: original ids not marked for
removal. -/
theorem R1_ids_iff (routes : List ProcessedRoute) (stF : MergeState)
    (hidx : IdxInv (routes.map (fun r => r.routeId)) stF.index) (k : String) :
    (k ∈ ((routes.filter (fun r => ¬ r.routeId ∈ stF.remove)).map
        (fun r => (getM stF.index r.routeId).getD r)).map (fun r => r.routeId)) ↔
    (k ∈ routes.map (fun r => r.routeId) ∧ ¬ k ∈ stF.remove) := by
  constructor
  · intro hk
    obtain ⟨r2, hr2, hid⟩ := List.mem_map.mp hk
    have hfacts := mem_R1_getM routes stF hidx r2 hr2
    rw [← hid]
    exact ⟨hfacts.2.1, hfacts.2.2⟩
  · rintro ⟨hk1, hk2⟩
    obtain ⟨r, hr, hrid⟩ := List.mem_map.mp hk1
    obtain ⟨v, hv, hvid⟩ := hidx k hk1
    refine List.mem_map.mpr ⟨v, List.mem_map.mpr ⟨r, ?_, ?_⟩, hvid⟩
    · refine List.mem_filter.mpr ⟨hr, decide_eq_true ?_⟩
      rw [hrid]
      exact hk2
    · rw [hrid, hv]
      rfl

/-- At the start of a second pass every processed group is skipped. -/
theorem run2_skip (routes : List ProcessedRoute) (stF : MergeState)
    (R1 : List ProcessedRoute)
    (hidx : IdxInv (routes.map (fun r => r.routeId)) stF.index)
    (hR1 : R1 = (routes.filter (fun r => ¬ r.routeId ∈ stF.remove)).map
        (fun r => (getM stF.index r.routeId).getD r))
    (g : RouteMergeGroup) (hgood : goodGroup g)
    (hgd : GDone (routes.map (fun r => r.routeId)) g stF) :
    applyOneGroup { index := buildRouteIndexP R1, remove := [], sched := stF.sched } g =
      { index := buildRouteIndexP R1, remove := [], sched := stF.sched } := by
  refine applyOneGroup_skip _ g ?_
  have hfound : (g.routeIds.filterMap (getM (buildRouteIndexP R1))).length =
      (g.routeIds.filter (fun k => decide (k ∈ routes.map (fun r => r.routeId) ∧
        ¬ k ∈ stF.remove))).length := by
    rw [length_filterMap_eq]
    refine congrArg List.length (List.filter_congr ?_)
    intro k _
    have hkey : ((getM (buildRouteIndexP R1) k).isSome = true) ↔
        (k ∈ routes.map (fun r => r.routeId) ∧ ¬ k ∈ stF.remove) := by
      have h1 := isSome_getM_foldl_setM R1 [] k
      have h2 : ¬ ((getM ([] : MapL ProcessedRoute) k).isSome = true) := by
        rw [show getM ([] : MapL ProcessedRoute) k = none from rfl]
        simp
      constructor
      · intro h
        rcases h1.mp h with h3 | h3
        · rw [hR1] at h3
          exact (R1_ids_iff routes stF hidx k).mp h3
        · exact absurd h3 h2
      · intro h
        refine h1.mpr (Or.inl ?_)
        rw [hR1]
        exact (R1_ids_iff routes stF hidx k).mpr h
    by_cases hc : k ∈ routes.map (fun r => r.routeId) ∧ ¬ k ∈ stF.remove
    · rw [decide_eq_true hc]
      exact hkey.mpr hc
    · rw [decide_eq_false hc]
      cases hs : (getM (buildRouteIndexP R1) k).isSome with
      | false => rfl
      | true => exact absurd (hkey.mp hs) hc
  rcases hgd with hd1 | hd2 | hd3
  · exact Or.inl (by rw [hfound]; exact hd1)
  · exact Or.inr hd2
  · refine Or.inl ?_
    rw [hfound]
    have hle : (g.routeIds.filter (fun k => decide (k ∈ routes.map (fun r => r.routeId) ∧
        ¬ k ∈ stF.remove))).length ≤ 1 := by
      refine length_le_one_of_nodup_all_eq _ (effPrimary g) (List.Nodup.filter _ hgood.1) ?_
      intro a ha
      have hma := List.mem_filter.mp ha
      have hdec := of_decide_eq_true hma.2
      by_contra hne
      exact hdec.2 (hd3 a hma.1 hne)
    omega


/-- C5.  Amended: `applyRouteMerges` is idempotent provided that within
each merge group no route id is listed twice and that every group large
enough to merge has an effective primary id among its own members.  The
unconditional claim is refuted by `C5_applyRouteMerges_counterexample`. -/
theorem C5_applyRouteMerges_idempotent (routes : List ProcessedRoute)
    (schedules : MapL (List ProcessedTrip)) (mergeGroups : List RouteMergeGroup)
    (hgood : ∀ g ∈ mergeGroups, goodGroup g) :
    applyRouteMerges (applyRouteMerges routes schedules mergeGroups).1
      (applyRouteMerges routes schedules mergeGroups).2 mergeGroups =
      applyRouteMerges routes schedules mergeGroups := by
  obtain ⟨hIF, hRel, hRem, hGD⟩ := mergeLoop_facts (routes.map (fun r => r.routeId))
    mergeGroups { index := buildRouteIndexP routes, remove := [], sched := schedules }
    hgood (IdxInv_buildRouteIndexP routes)
  set stF := mergeGroups.foldl applyOneGroup
    { index := buildRouteIndexP routes, remove := [], sched := schedules } with hstF
  set R1 := (routes.filter (fun r => ¬ r.routeId ∈ stF.remove)).map
    (fun r => (getM stF.index r.routeId).getD r) with hR1
  have hout : applyRouteMerges routes schedules mergeGroups = (R1, stF.sched) := rfl
  rw [hout]
  have hskip : ∀ g ∈ mergeGroups,
      applyOneGroup { index := buildRouteIndexP R1, remove := [], sched := stF.sched } g =
        { index := buildRouteIndexP R1, remove := [], sched := stF.sched } := by
    intro g hg
    exact run2_skip routes stF R1 hIF hR1 g (hgood g hg) (hGD g hg)
  have hfold2 : mergeGroups.foldl applyOneGroup
      { index := buildRouteIndexP R1, remove := [], sched := stF.sched } =
      { index := buildRouteIndexP R1, remove := [], sched := stF.sched } :=
    foldl_id_of_all_skip _ _ _ hskip
  simp only [applyRouteMerges]
  rw [hfold2]
  have hfilter : R1.filter (fun r => ¬ r.routeId ∈ ([] : List String)) = R1 :=
    List.filter_eq_self.mpr (fun a _ => by simp)
  rw [hfilter]
  have hmapid : R1.map (fun r => (getM (buildRouteIndexP R1) r.routeId).getD r) = R1 := by
    have huniq : ∀ r ∈ R1, ∀ a ∈ R1, a.routeId = r.routeId → a = r := by
      intro r hr a ha hid
      have h1 := mem_R1_getM routes stF hIF r hr
      have h2 := mem_R1_getM routes stF hIF a ha
      have h3 := h2.1
      rw [hid, h1.1] at h3
      exact (Option.some.inj h3).symm
    have hpt : ∀ r ∈ R1, (getM (buildRouteIndexP R1) r.routeId).getD r = r := by
      intro r hr
      have hself := getM_foldl_setM_self_of_unique R1 [] r hr
        (fun a ha hid => huniq r hr a ha hid)
      rw [show buildRouteIndexP R1 = R1.foldl (fun m r => setM m r.routeId r) [] from rfl,
        hself]
      rfl
    calc R1.map (fun r => (getM (buildRouteIndexP R1) r.routeId).getD r)
        = R1.map id := List.map_congr_left (fun a ha => hpt a ha)
      _ = R1 := List.map_id R1
  rw [hmapid]


/-- Witness for C5: a concrete two-route merge that does fire, applied
twice, equals one application. -/
theorem C5_applyRouteMerges_idempotent_witness :
    (∀ g ∈ [exC5groupOK], goodGroup g) ∧
    applyRouteMerges (applyRouteMerges [exRoute1, exRoute2] exC5schedOK [exC5groupOK]).1
      (applyRouteMerges [exRoute1, exRoute2] exC5schedOK [exC5groupOK]).2 [exC5groupOK] =
      applyRouteMerges [exRoute1, exRoute2] exC5schedOK [exC5groupOK] :=
  ⟨by decide, C5_applyRouteMerges_idempotent [exRoute1, exRoute2] exC5schedOK [exC5groupOK]
    (by decide)⟩

/-- Counterexample for C5 as stated: a group listing one id twice keeps
doubling that route's schedule bucket, and groups whose stated primary
id is not a member shrink the catalog again on a second pass.  Each
construction satisfies the hypothesis that the other violates. -/
theorem C5_applyRouteMerges_counterexample :
    (applyRouteMerges (applyRouteMerges [mkC5Route r"A"] exC5schedDup [exC5groupDup]).1
        (applyRouteMerges [mkC5Route r"A"] exC5schedDup [exC5groupDup]).2 [exC5groupDup] ≠
      applyRouteMerges [mkC5Route r"A"] exC5schedDup [exC5groupDup]) ∧
    (∀ g ∈ [exC5groupDup], 2 ≤ g.routeIds.length → effPrimary g ∈ g.routeIds) ∧
    (applyRouteMerges (applyRouteMerges exC5routes6 exC5sched6 exC5groups6).1
        (applyRouteMerges exC5routes6 exC5sched6 exC5groups6).2 exC5groups6 ≠
      applyRouteMerges exC5routes6 exC5sched6 exC5groups6) ∧
    (∀ g ∈ exC5groups6, g.routeIds.Nodup) := by
  decide
